import Mathlib

/-!
Verification of the NonProfitDataCollectors repository's core data
transformations: the XML flattener (`flatten_xml` in
`series_990/series_990_downloader.py`), the JSON re-nesting function
(`build_json_structure` in `mongodb_uploader/*`), the batch writers
(`process_csv_file` in the JSON converter and the MongoDB uploader),
the downloaders' `download_file` error behaviour, and the per-year CSV
materialization (`process_year_data` / `convert_jsonl_to_csv`).

Python dictionaries are modelled as ordered association lists where
assignment to an existing key replaces the value in place and
assignment to a fresh key appends; lookups, key sets and iteration
order then match CPython semantics.
-/

namespace NPDC

/-! ## Python dict model -/

/-- Python `d[k] = v`: replace in place if the key is present, else append. -/
def dictSet {α : Type} (m : List (String × α)) (k : String) (v : α) :
    List (String × α) :=
  if m.any (fun p => p.1 == k) then
    m.map (fun p => if p.1 == k then (k, v) else p)
  else m ++ [(k, v)]

/-- Python `d[k]` / `d.get(k)`: value at the first (hence, for dicts built
with `dictSet`, only) occurrence of the key. -/
def dictGet {α : Type} (m : List (String × α)) (k : String) : Option α :=
  (m.find? (fun p => p.1 == k)).map Prod.snd

/-- Python `d.keys()` in iteration order. -/
def dictKeys {α : Type} (m : List (String × α)) : List String :=
  m.map Prod.fst

theorem dictGet_dictSet_self {α : Type} (m : List (String × α)) (k : String)
    (v : α) : dictGet (dictSet m k v) k = some v := by
  unfold dictSet dictGet
  by_cases h : (m.any fun p => p.1 == k) = true
  · simp only [h, if_true, List.find?_map]
    have hc : ((fun p : String × α => p.1 == k) ∘
        fun p => if p.1 == k then (k, v) else p) =
        fun p : String × α => p.1 == k := by
      funext q
      by_cases hq : (q.1 == k) = true <;> simp [Function.comp, hq]
    rw [hc]
    cases hf : m.find? (fun p => p.1 == k) with
    | none =>
      rw [List.find?_eq_none] at hf
      obtain ⟨q, hq, hqk⟩ := List.any_eq_true.mp h
      exact absurd hqk (hf q hq)
    | some r =>
      have hrk := List.find?_some hf
      simp [hrk, eq_of_beq hrk]
  · simp only [h, if_false]
    have hm : m.find? (fun p => p.1 == k) = none := by
      rw [List.find?_eq_none]
      intro x hx hxk
      exact h (List.any_eq_true.mpr ⟨x, hx, hxk⟩)
    simp [List.find?_append, hm, List.find?]

theorem dictGet_dictSet_ne {α : Type} (m : List (String × α)) (k k' : String)
    (v : α) (hne : k' ≠ k) : dictGet (dictSet m k v) k' = dictGet m k' := by
  unfold dictSet dictGet
  by_cases h : (m.any fun p => p.1 == k) = true
  · simp only [h, if_true, List.find?_map]
    have hc : ((fun p : String × α => p.1 == k') ∘
        fun p => if p.1 == k then (k, v) else p) =
        fun p : String × α => p.1 == k' := by
      funext q
      by_cases hq : (q.1 == k) = true
      · have hq' : q.1 = k := eq_of_beq hq
        simp [Function.comp, hq, hq', beq_eq_false_iff_ne, Ne.symm hne]
      · simp [Function.comp, hq]
    rw [hc]
    cases hf : m.find? (fun p => p.1 == k') with
    | none => simp
    | some r =>
      have hrk' := List.find?_some hf
      have hrk : ¬ r.1 = k := by
        intro hk
        exact hne ((eq_of_beq hrk').symm.trans hk)
      simp [hrk]
  · simp only [h, if_false]
    have hkk' : (k == k') = false := by
      rw [beq_eq_false_iff_ne]
      exact Ne.symm hne
    simp [List.find?_append, List.find?, hkk']

theorem dictKeys_dictSet {α : Type} (m : List (String × α)) (k : String)
    (v : α) (k' : String) (hk' : k' ∈ dictKeys m) :
    k' ∈ dictKeys (dictSet m k v) := by
  unfold dictSet dictKeys at *
  by_cases h : (m.any fun p => p.1 == k) = true
  · simp only [h, if_true, List.map_map]
    have hc : (Prod.fst ∘ fun p : String × α => if p.1 == k then (k, v) else p)
        = Prod.fst := by
      funext q
      by_cases hq : (q.1 == k) = true
      · simp [Function.comp, hq, eq_of_beq hq]
      · simp [Function.comp, hq]
    rw [hc]
    exact hk'
  · rw [if_neg h, List.map_append]
    exact List.mem_append_left _ hk'

theorem dictKeys_dictSet_self {α : Type} (m : List (String × α)) (k : String)
    (v : α) : k ∈ dictKeys (dictSet m k v) := by
  unfold dictSet dictKeys
  by_cases h : (m.any fun p => p.1 == k) = true
  · rw [if_pos h, List.map_map]
    obtain ⟨q, hq, hqk⟩ := List.any_eq_true.mp h
    exact List.mem_map.mpr ⟨q, hq, by simp [Function.comp, hqk]⟩
  · rw [if_neg h]
    simp

/-! ## XML model and the flattener

`flatten_xml` (series_990_downloader.py) parses the XML and walks the
tree; for each child it strips any `\x7b...\x7d`-namespace from the tag
(greedy, like `re.sub(r'\x7b.*\x7d', '', tag)`), appends the tag to the
accumulated prefix, assigns `child.text` for childless elements and
recurses with `key + '_'` otherwise. -/

inductive Xml where
  | elem (tag : String) (text : Option String) (children : List Xml)

def Xml.tag : Xml → String
  | .elem t _ _ => t

def Xml.text : Xml → Option String
  | .elem _ tx _ => tx

def Xml.children : Xml → List Xml
  | .elem _ _ cs => cs

/-- `re.sub(r'\x7b.*\x7d', '', s)`: with a greedy `.*`, this removes the span
from the first opening brace through the last closing brace after it,
when both are present; otherwise it leaves the string unchanged. -/
def stripNs (s : String) : String :=
  match s.toList.findIdx? (· == '\x7b') with
  | none => s
  | some i =>
    match ((s.toList.drop (i + 1)).reverse).findIdx? (· == '\x7d') with
    | none => s
    | some r =>
      String.mk (s.toList.take i ++
        (s.toList.drop (i + 1)).drop ((s.toList.drop (i + 1)).length - r))

/-- The inner `_flatten` loop of `flatten_xml`, threading the mutated dict. -/
def flattenList : List Xml → String → List (String × Option String) →
    List (String × Option String)
  | [], _, acc => acc
  | Xml.elem t tx [] :: rest, pre, acc =>
    flattenList rest pre
      (dictSet acc (if pre = "" then stripNs t else pre ++ stripNs t) tx)
  | Xml.elem t _tx (c :: cs) :: rest, pre, acc =>
    flattenList rest pre
      (flattenList (c :: cs)
        ((if pre = "" then stripNs t else pre ++ stripNs t) ++ "_") acc)
termination_by l _ _ => sizeOf l
decreasing_by all_goals simp_wf <;> omega

/-- `flatten_xml`: seed the dict with the reserved `fileName` key, then
run `_flatten` on the root's children. -/
def flatten_xml (root : Xml) (filename : String) :
    List (String × Option String) :=
  flattenList root.children "" [("fileName", some filename)]

/-- Specification-side list of (accumulated key path, text) pairs of all
childless elements, in traversal order. -/
def leafPaths : List Xml → String → List (String × Option String)
  | [], _ => []
  | Xml.elem t tx [] :: rest, pre =>
    ((if pre = "" then stripNs t else pre ++ stripNs t), tx) :: leafPaths rest pre
  | Xml.elem t _tx (c :: cs) :: rest, pre =>
    leafPaths (c :: cs)
      ((if pre = "" then stripNs t else pre ++ stripNs t) ++ "_") ++
    leafPaths rest pre
termination_by l _ => sizeOf l
decreasing_by all_goals simp_wf <;> omega

/-- Folding Python dict assignment over a list of pairs. -/
def dictInsertAll (acc : List (String × Option String))
    (l : List (String × Option String)) : List (String × Option String) :=
  l.foldl (fun a kv => dictSet a kv.1 kv.2) acc

theorem dictInsertAll_nil (acc : List (String × Option String)) :
    dictInsertAll acc [] = acc := rfl

theorem dictInsertAll_cons (acc : List (String × Option String))
    (p : String × Option String) (t : List (String × Option String)) :
    dictInsertAll acc (p :: t) = dictInsertAll (dictSet acc p.1 p.2) t := rfl

theorem dictInsertAll_append (acc a b : List (String × Option String)) :
    dictInsertAll acc (a ++ b) = dictInsertAll (dictInsertAll acc a) b := by
  simp [dictInsertAll, List.foldl_append]

/-- The imperative `_flatten` walk is the fold of dict assignment over the
leaf pairs in traversal order. -/
theorem flattenList_eq_foldl (l : List Xml) (pre : String)
    (acc : List (String × Option String)) :
    flattenList l pre acc = dictInsertAll acc (leafPaths l pre) := by
  induction l, pre, acc using flattenList.induct with
  | case1 pre acc =>
    rw [flattenList, leafPaths, dictInsertAll_nil]
  | case2 t tx rest pre acc ih =>
    simp only [dite_eq_ite] at ih
    rw [flattenList, leafPaths, dictInsertAll_cons]
    exact ih
  | case3 t tx c cs rest pre acc ihInner ihOuter =>
    simp only [dite_eq_ite] at ihInner ihOuter
    rw [flattenList, leafPaths, dictInsertAll_append, ihOuter, ihInner]

theorem dictGet_dictInsertAll_not_mem (acc l : List (String × Option String))
    (k : String) (hk : k ∉ l.map Prod.fst) :
    dictGet (dictInsertAll acc l) k = dictGet acc k := by
  induction l generalizing acc with
  | nil => rfl
  | cons p t ih =>
    simp only [List.map_cons, List.mem_cons, not_or] at hk
    rw [dictInsertAll_cons, ih _ hk.2]
    exact dictGet_dictSet_ne _ _ _ _ hk.1

theorem dictGet_dictInsertAll_nodup (acc l : List (String × Option String))
    (k : String) (v : Option String) (hnd : (l.map Prod.fst).Nodup)
    (hmem : (k, v) ∈ l) : dictGet (dictInsertAll acc l) k = some v := by
  induction l generalizing acc with
  | nil => cases hmem
  | cons p t ih =>
    simp only [List.map_cons, List.nodup_cons] at hnd
    cases hmem with
    | head =>
      rw [dictInsertAll_cons, dictGet_dictInsertAll_not_mem _ _ _ hnd.1]
      exact dictGet_dictSet_self _ _ _
    | tail _ hmem =>
      rw [dictInsertAll_cons]
      exact ih _ hnd.2 hmem

theorem dictKeys_dictInsertAll_of_mem_acc (acc l : List (String × Option String))
    (k : String) (hk : k ∈ dictKeys acc) : k ∈ dictKeys (dictInsertAll acc l) := by
  induction l generalizing acc with
  | nil => exact hk
  | cons p t ih =>
    rw [dictInsertAll_cons]
    exact ih _ (dictKeys_dictSet _ _ _ _ hk)

theorem dictKeys_dictInsertAll_of_mem (acc l : List (String × Option String))
    (kv : String × Option String) (hkv : kv ∈ l) :
    kv.1 ∈ dictKeys (dictInsertAll acc l) := by
  induction l generalizing acc with
  | nil => cases hkv
  | cons p t ih =>
    rw [dictInsertAll_cons]
    cases hkv with
    | head => exact dictKeys_dictInsertAll_of_mem_acc _ _ _ (dictKeys_dictSet_self _ _ _)
    | tail _ h => exact ih _ h

/-- The filing of the spec scenario:
`<Return><ReturnHeader><TaxYr>2022</TaxYr></ReturnHeader></Return>`. -/
def returnExample : Xml :=
  Xml.elem "Return" none
    [Xml.elem "ReturnHeader" none [Xml.elem "TaxYr" (some "2022") []]]

/-- C1: for every XML filing in which no two leaves share the same
accumulated underscore-joined key path and no leaf path equals the reserved
`fileName` key, flattening with `flatten_xml` and then looking up each
leaf's accumulated key path returns exactly that leaf's text content. -/
theorem flatten_xml_lookup_leaf (root : Xml) (fn k : String) (v : Option String)
    (hnd : ((leafPaths root.children "").map Prod.fst).Nodup)
    (_hfn : "fileName" ∉ (leafPaths root.children "").map Prod.fst)
    (hmem : (k, v) ∈ leafPaths root.children "") :
    dictGet (flatten_xml root fn) k = some v := by
  unfold flatten_xml
  rw [flattenList_eq_foldl]
  exact dictGet_dictInsertAll_nodup _ _ _ _ hnd hmem

/-- Witness for C1 at the scenario filing: its single leaf has path
`ReturnHeader_TaxYr`, the hypotheses hold, and lookup returns the text. -/
theorem flatten_xml_lookup_leaf_witness :
    ((leafPaths returnExample.children "").map Prod.fst).Nodup ∧
    "fileName" ∉ (leafPaths returnExample.children "").map Prod.fst ∧
    ("ReturnHeader_TaxYr", some "2022") ∈ leafPaths returnExample.children "" ∧
    dictGet (flatten_xml returnExample "f.xml") "ReturnHeader_TaxYr"
      = some (some "2022") := by
  have h1 : ((leafPaths returnExample.children "").map Prod.fst).Nodup := by
    simp only [returnExample, Xml.children, leafPaths]
    decide
  have h2 : "fileName" ∉ (leafPaths returnExample.children "").map Prod.fst := by
    simp only [returnExample, Xml.children, leafPaths]
    decide
  have h3 : ("ReturnHeader_TaxYr", some "2022") ∈ leafPaths returnExample.children "" := by
    simp only [returnExample, Xml.children, leafPaths]
    decide
  exact ⟨h1, h2, h3, flatten_xml_lookup_leaf returnExample "f.xml" _ _ h1 h2 h3⟩

/-- C2 counterexample: in the filing `<Return><A/></Return>` the childless
element `A` has absent text, yet `flatten_xml` still records the entry
`("A", none)`, so the key `A` maps to an absent value — contradicting the
claim that empty/absent-text leaves are omitted from the flat record. -/
theorem flatten_xml_empty_leaf_kept :
    flatten_xml (Xml.elem "Return" none [Xml.elem "A" none []]) "f.xml"
      = [("fileName", some "f.xml"), ("A", none)] ∧
    dictGet (flatten_xml (Xml.elem "Return" none [Xml.elem "A" none []])
      "f.xml") "A" = some none := by
  constructor
  · simp only [flatten_xml, Xml.children, flattenList]
    decide
  · simp only [flatten_xml, Xml.children, flattenList]
    decide

/-- C2 (amended): an element with no children always contributes an entry
under its full accumulated key path, even when its text content is empty or
absent; such leaves are not omitted, so keys of the flat record may map to
empty or absent values. -/
theorem flatten_xml_leaf_key_present (root : Xml) (fn : String)
    (kv : String × Option String) (hmem : kv ∈ leafPaths root.children "") :
    kv.1 ∈ dictKeys (flatten_xml root fn) := by
  unfold flatten_xml
  rw [flattenList_eq_foldl]
  exact dictKeys_dictInsertAll_of_mem _ _ _ hmem

/-- Witness for the amended C2 at the counterexample filing: the absent-text
leaf `A` is a leaf pair, and its key appears in the flat record. -/
theorem flatten_xml_leaf_key_present_witness :
    ("A", (none : Option String)) ∈
      leafPaths (Xml.elem "Return" none [Xml.elem "A" none []]).children "" ∧
    "A" ∈ dictKeys (flatten_xml
      (Xml.elem "Return" none [Xml.elem "A" none []]) "f.xml") := by
  have h : ("A", (none : Option String)) ∈
      leafPaths (Xml.elem "Return" none [Xml.elem "A" none []]).children "" := by
    simp only [Xml.children, leafPaths]
    decide
  exact ⟨h, flatten_xml_leaf_key_present _ "f.xml" _ h⟩

/-- C3: the scenario filing flattens to exactly
`[("fileName", "f.xml"), ("ReturnHeader_TaxYr", "2022")]`; the second
conjunct shows the same record results when the tags carry an XML
namespace, which is stripped. -/
theorem flatten_xml_scenario :
    flatten_xml returnExample "f.xml"
      = [("fileName", some "f.xml"), ("ReturnHeader_TaxYr", some "2022")] ∧
    flatten_xml (Xml.elem "Return" none
      [Xml.elem "\x7bhttp://www.irs.gov/efile\x7dReturnHeader" none
        [Xml.elem "\x7bhttp://www.irs.gov/efile\x7dTaxYr" (some "2022") []]])
      "f.xml"
      = [("fileName", some "f.xml"), ("ReturnHeader_TaxYr", some "2022")] := by
  constructor
  · simp only [returnExample, flatten_xml, Xml.children, flattenList]
    decide
  · simp only [flatten_xml, Xml.children, flattenList]
    decide

/-- C4 counterexample: a filing with a top-level leaf tagged `fileName`
overwrites the reserved entry, so the flat record maps `fileName` to the
leaf's text `oops` rather than to the given source filename `f.xml`. -/
theorem flatten_xml_fileName_overwritten :
    dictGet (flatten_xml (Xml.elem "Return" none
      [Xml.elem "fileName" (some "oops") []]) "f.xml") "fileName"
      = some (some "oops") ∧
    dictGet (flatten_xml (Xml.elem "Return" none
      [Xml.elem "fileName" (some "oops") []]) "f.xml") "fileName"
      ≠ some (some "f.xml") := by
  constructor
  · simp only [flatten_xml, Xml.children, flattenList]
    decide
  · simp only [flatten_xml, Xml.children, flattenList]
    decide

/-- C4 (amended): the flat record always contains the reserved key
`fileName`, and it is mapped to the given source filename whenever no
leaf's accumulated key path equals `fileName` (a leaf at path `fileName`
overwrites the reserved entry). -/
theorem flatten_xml_fileName_present (root : Xml) (fn : String)
    (hfn : "fileName" ∉ (leafPaths root.children "").map Prod.fst) :
    "fileName" ∈ dictKeys (flatten_xml root fn) ∧
    dictGet (flatten_xml root fn) "fileName" = some (some fn) := by
  unfold flatten_xml
  rw [flattenList_eq_foldl]
  constructor
  · exact dictKeys_dictInsertAll_of_mem_acc _ _ _ (by simp [dictKeys])
  · rw [dictGet_dictInsertAll_not_mem _ _ _ hfn]
    simp [dictGet, List.find?]

/-- Witness for the amended C4 at the scenario filing. -/
theorem flatten_xml_fileName_present_witness :
    "fileName" ∉ (leafPaths returnExample.children "").map Prod.fst ∧
    ("fileName" ∈ dictKeys (flatten_xml returnExample "f.xml") ∧
      dictGet (flatten_xml returnExample "f.xml") "fileName"
        = some (some "f.xml")) := by
  have h : "fileName" ∉ (leafPaths returnExample.children "").map Prod.fst := by
    simp only [returnExample, Xml.children, leafPaths]
    decide
  exact ⟨h, flatten_xml_fileName_present returnExample "f.xml" h⟩

/-! ## JSON values and `build_json_structure`

Both `series_990_json_converter.py` and `series_990_mongodb_uploader.py`
define the same `build_json_structure(row)`: entries with falsy values are
skipped; every other key is split on every underscore and the value is
written at the resulting nested path, `setdefault`-ing intermediate
dictionaries. Reaching an existing non-dict value on the path raises a
`TypeError`/`AttributeError` in Python, modelled as `Except.error`. -/

inductive JVal where
  | str (s : String)
  | num (n : Int)
  | obj (fields : List (String × JVal))

def splitChars : List Char → List (List Char)
  | [] => [[]]
  | c :: rest =>
    if c = '_' then [] :: splitChars rest
    else
      match splitChars rest with
      | [] => [[c]]
      | h :: t => (c :: h) :: t

/-- Python `key.split('_')`. -/
def splitOnUnderscore (s : String) : List String :=
  (splitChars s.toList).map String.mk

/-- `d = result; for part in keys[:-1]: d = d.setdefault(part, ...);
d[keys[-1]] = value`, functionally: descend along the intermediate parts,
creating empty objects for missing keys, and assign the value at the last
part. -/
def setPath : JVal → List String → String → JVal → Except Unit JVal
  | JVal.obj fs, [], lastKey, v => .ok (JVal.obj (dictSet fs lastKey v))
  | JVal.obj fs, p :: rest, lastKey, v =>
    match dictGet fs p with
    | none =>
      match setPath (JVal.obj []) rest lastKey v with
      | .ok sub => .ok (JVal.obj (fs ++ [(p, sub)]))
      | .error e => .error e
    | some (JVal.obj g) =>
      match setPath (JVal.obj g) rest lastKey v with
      | .ok sub => .ok (JVal.obj (dictSet fs p sub))
      | .error e => .error e
    | some _ => .error ()
  | _, _, _, _ => .error ()

/-- `build_json_structure(row)`. -/
def build_json_structure (row : List (String × Option String)) :
    Except Unit JVal :=
  row.foldlM (fun acc kv =>
    match kv.2 with
    | none => .ok acc
    | some s =>
      if s = "" then .ok acc
      else setPath acc (splitOnUnderscore kv.1).dropLast
        ((splitOnUnderscore kv.1).getLastD "") (JVal.str s)) (JVal.obj [])

/-! ## The batch writers (`process_csv_file`) -/

/-- Python `str.strip()`: remove leading and trailing whitespace. -/
def pyStrip (s : String) : String :=
  String.mk (((s.toList.dropWhile Char.isWhitespace).reverse.dropWhile
    Char.isWhitespace).reverse)

/-- One CSV row as yielded by `csv.DictReader`: (fieldname, raw value). -/
abbrev CsvRow := List (String × String)

/-- The row preprocessing shared by both `process_csv_file` implementations:
keep entries whose value is non-empty and not all whitespace, stripped. -/
def processedRow (row : CsvRow) : List (String × String) :=
  (row.filter (fun kv => kv.2 != "" && pyStrip kv.2 != "")).map
    (fun kv => (kv.1, pyStrip kv.2))

/-- `batch_size = 10000` in both `process_csv_file` implementations. -/
def batchSize : Nat := 10000

/-- Pure view of one step of the batch loop: append the document, flush
when the batch reaches the threshold. State: (flushed batches, batch). -/
def batchStep (st : List (List JVal) × List JVal) (d : JVal) :
    List (List JVal) × List JVal :=
  if batchSize ≤ (st.2 ++ [d]).length then (st.1 ++ [st.2 ++ [d]], [])
  else (st.1, st.2 ++ [d])

/-- The documents the batch loop appends, row by row: empty processed rows
contribute nothing; a document-construction error aborts the run. -/
def rowDocs (f : CsvRow → Except Unit JVal) : List CsvRow →
    Except Unit (List JVal)
  | [] => .ok []
  | r :: rs =>
    if (processedRow r).isEmpty then rowDocs f rs
    else
      match f r with
      | .error e => .error e
      | .ok d =>
        match rowDocs f rs with
        | .error e => .error e
        | .ok ds => .ok (d :: ds)

namespace Series990JSONConverter

/-- One processed document of the JSON converter:
`build_json_structure(processed_row)` followed by
`document['tax_year'] = year`. -/
def rowDocument (row : CsvRow) (year : Int) : Except Unit JVal :=
  match build_json_structure
      ((processedRow row).map (fun kv => (kv.1, some kv.2))) with
  | .ok (JVal.obj fs) =>
    .ok (JVal.obj (dictSet fs "tax_year" (JVal.num year)))
  | .ok v => .ok v
  | .error e => .error e

structure LoopState where
  batches : List (List JVal)
  batch : List JVal
  total : Nat

structure ConvResult where
  mainBatches : List (List JVal)
  finalBatch : List JVal
  total : Nat

/-- `Series990JSONConverter.process_csv_file`: batch the documents, write a
batch to the JSONL sink when it reaches `batch_size`, flush any remainder
at end of input, and return `total_documents`. `mainBatches` are the
batches written inside the loop and `finalBatch` is the end-of-input flush
(empty when nothing remained). `loopStep` is the body of the row loop. -/
def loopStep (year : Int) (st : LoopState) (row : CsvRow) :
    Except Unit LoopState :=
  if (processedRow row).isEmpty then Except.ok st
  else
    match rowDocument row year with
    | .error e => Except.error e
    | .ok doc =>
      if batchSize ≤ (st.batch ++ [doc]).length then
        Except.ok ⟨st.batches ++ [st.batch ++ [doc]], [],
          st.total + (st.batch ++ [doc]).length⟩
      else Except.ok ⟨st.batches, st.batch ++ [doc], st.total⟩

def process_csv_file (rows : List CsvRow) (year : Int) :
    Except Unit ConvResult :=
  match rows.foldlM (loopStep year) ⟨[], [], 0⟩ with
  | .error e => .error e
  | .ok st =>
    if st.batch.isEmpty then .ok ⟨st.batches, [], st.total⟩
    else .ok ⟨st.batches, st.batch, st.total + st.batch.length⟩

end Series990JSONConverter

namespace Series990MongoDBUploader

/-- One processed document of the MongoDB uploader:
`build_json_structure(processed_row)` (no tax-year field). -/
def rowDocument (row : CsvRow) : Except Unit JVal :=
  build_json_structure ((processedRow row).map (fun kv => (kv.1, some kv.2)))

/-- The server's response to one `bulk_write` call: either a success whose
`inserted_count` is reported, or a `BulkWriteError` whose details carry
`nInserted`. -/
inductive BulkOutcome where
  | ok (insertedCount : Nat)
  | bulkWriteError (nInserted : Nat)

def BulkOutcome.reported : BulkOutcome → Nat
  | .ok n => n
  | .bulkWriteError n => n

structure UpState where
  batches : List (List JVal)
  ops : List JVal
  total : Nat

structure UploadResult where
  mainBatches : List (List JVal)
  finalBatch : List JVal
  total : Nat

/-- `Series990MongoDBUploader.process_csv_file`: accumulate `InsertOne`
operations, `bulk_write` each full batch (and the remainder at end of
input), add the reported inserted count to the running total whether or
not the write partially failed, clear the operations in the `finally`
block (failed documents are never retried), and return the total.
`outcomes i` is the server's response to the `i`-th submitted batch;
`mainBatches` are the batches submitted inside the loop, `finalBatch`
the end-of-input submission (empty when nothing remained). `upStep` is
the body of the row loop. -/
def upStep (outcomes : Nat → BulkOutcome) (st : UpState) (row : CsvRow) :
    Except Unit UpState :=
  if (processedRow row).isEmpty then Except.ok st
  else
    match rowDocument row with
    | .error e => Except.error e
    | .ok doc =>
      if batchSize ≤ (st.ops ++ [doc]).length then
        Except.ok ⟨st.batches ++ [st.ops ++ [doc]], [],
          st.total + (outcomes st.batches.length).reported⟩
      else Except.ok ⟨st.batches, st.ops ++ [doc], st.total⟩

def process_csv_file (rows : List CsvRow) (outcomes : Nat → BulkOutcome) :
    Except Unit UploadResult :=
  match rows.foldlM (upStep outcomes) ⟨[], [], 0⟩ with
  | .error e => .error e
  | .ok st =>
    if st.ops.isEmpty then .ok ⟨st.batches, [], st.total⟩
    else .ok ⟨st.batches, st.ops,
      st.total + (outcomes st.batches.length).reported⟩

end Series990MongoDBUploader

/-! ## Batch loop lemmas -/

theorem batchStep_eq_flush (bs : List (List JVal)) (b : List JVal) (d : JVal)
    (h : batchSize ≤ (b ++ [d]).length) :
    batchStep (bs, b) d = (bs ++ [b ++ [d]], []) := by
  unfold batchStep
  rw [if_pos h]

theorem batchStep_eq_push (bs : List (List JVal)) (b : List JVal) (d : JVal)
    (h : ¬ batchSize ≤ (b ++ [d]).length) :
    batchStep (bs, b) d = (bs, b ++ [d]) := by
  unfold batchStep
  rw [if_neg h]

theorem batchStep_join (l : List JVal) (bs0 : List (List JVal))
    (b0 : List JVal) :
    (l.foldl batchStep (bs0, b0)).1.flatten ++ (l.foldl batchStep (bs0, b0)).2
      = bs0.flatten ++ b0 ++ l := by
  induction l generalizing bs0 b0 with
  | nil => simp
  | cons d t ih =>
    rw [List.foldl_cons]
    by_cases h : batchSize ≤ (b0 ++ [d]).length
    · rw [batchStep_eq_flush _ _ _ h, ih]
      simp
    · rw [batchStep_eq_push _ _ _ h, ih]
      simp

theorem batchStep_small (l : List JVal) (bs0 : List (List JVal))
    (b0 : List JVal) (h : b0.length + l.length < batchSize) :
    l.foldl batchStep (bs0, b0) = (bs0, b0 ++ l) := by
  induction l generalizing b0 with
  | nil => simp
  | cons d t ih =>
    rw [List.foldl_cons]
    have hno : ¬ batchSize ≤ (b0 ++ [d]).length := by
      simp only [List.length_cons] at h
      simp only [List.length_append, List.length_cons, List.length_nil]
      omega
    rw [batchStep_eq_push _ _ _ hno]
    rw [ih (b0 ++ [d]) (by
      simp only [List.length_cons] at h
      simp only [List.length_append, List.length_cons, List.length_nil]
      omega)]
    simp

theorem batchStep_exact (l : List JVal) (bs0 : List (List JVal))
    (b0 : List JVal) (hlen : b0.length + l.length = batchSize)
    (hne : l ≠ []) :
    l.foldl batchStep (bs0, b0) = (bs0 ++ [b0 ++ l], []) := by
  induction l generalizing b0 with
  | nil => cases hne rfl
  | cons d t ih =>
    rw [List.foldl_cons]
    cases t with
    | nil =>
      have hy : batchSize ≤ (b0 ++ [d]).length := by
        simp only [List.length_cons, List.length_nil] at hlen
        simp only [List.length_append, List.length_cons, List.length_nil]
        omega
      rw [batchStep_eq_flush _ _ _ hy]
      simp
    | cons d2 t2 =>
      have hno : ¬ batchSize ≤ (b0 ++ [d]).length := by
        simp only [List.length_cons] at hlen
        simp only [List.length_append, List.length_cons, List.length_nil]
        omega
      rw [batchStep_eq_push _ _ _ hno]
      rw [ih (b0 ++ [d]) (by
        simp only [List.length_cons] at hlen
        simp only [List.length_append, List.length_cons, List.length_nil]
        omega) (by simp)]
      simp

namespace Series990JSONConverter

/-- The converter's row loop, started from a state whose running total
matches its flushed batches, computes exactly the pure batching of the
document sequence. -/
theorem loop_eq_batching (year : Int) (rows : List CsvRow) (st0 : LoopState)
    (htot : st0.total = st0.batches.flatten.length) :
    rows.foldlM (loopStep year) st0 =
      (rowDocs (fun r => rowDocument r year) rows).map (fun ds =>
        let p := ds.foldl batchStep (st0.batches, st0.batch)
        ⟨p.1, p.2, p.1.flatten.length⟩) := by
  induction rows generalizing st0 with
  | nil =>
    cases st0 with
    | mk bs b tot =>
      have h : tot = bs.flatten.length := htot
      subst h
      rfl
  | cons r rs ih =>
    rw [List.foldlM_cons, rowDocs]
    by_cases hr : (processedRow r).isEmpty = true
    · have hstep : loopStep year st0 r = Except.ok st0 := by
        simp [loopStep, hr]
      rw [hstep, if_pos hr]
      show rs.foldlM (loopStep year) st0 = _
      exact ih st0 htot
    · rw [if_neg hr]
      cases hd : rowDocument r year with
      | error e =>
        have hstep : loopStep year st0 r = Except.error e := by
          simp [loopStep, hr, hd]
        rw [hstep]
        simp only [hd]
        rfl
      | ok doc =>
        simp only [hd]
        by_cases hb : batchSize ≤ (st0.batch ++ [doc]).length
        · have hstep : loopStep year st0 r = Except.ok
              ⟨st0.batches ++ [st0.batch ++ [doc]], [],
                st0.total + (st0.batch ++ [doc]).length⟩ := by
            simp only [loopStep, hr, Bool.false_eq_true, if_false, hd]
            rw [if_pos hb]
          rw [hstep]
          show rs.foldlM (loopStep year)
              ⟨st0.batches ++ [st0.batch ++ [doc]], [],
                st0.total + (st0.batch ++ [doc]).length⟩ = _
          rw [ih ⟨st0.batches ++ [st0.batch ++ [doc]], [],
                st0.total + (st0.batch ++ [doc]).length⟩ (by
            show st0.total + (st0.batch ++ [doc]).length
                = ((st0.batches ++ [st0.batch ++ [doc]]).flatten).length
            rw [htot]
            simp [List.flatten_append])]
          cases hds : rowDocs (fun r => rowDocument r year) rs with
          | error e => rfl
          | ok ds =>
            show Except.ok _ = Except.ok _
            simp only [List.foldl_cons, batchStep_eq_flush _ _ _ hb]
        · have hstep : loopStep year st0 r = Except.ok
              ⟨st0.batches, st0.batch ++ [doc], st0.total⟩ := by
            simp only [loopStep, hr, Bool.false_eq_true, if_false, hd]
            rw [if_neg hb]
          rw [hstep]
          show rs.foldlM (loopStep year)
              ⟨st0.batches, st0.batch ++ [doc], st0.total⟩ = _
          rw [ih ⟨st0.batches, st0.batch ++ [doc], st0.total⟩ htot]
          cases hds : rowDocs (fun r => rowDocument r year) rs with
          | error e => rfl
          | ok ds =>
            show Except.ok _ = Except.ok _
            simp only [List.foldl_cons, batchStep_eq_push _ _ _ hb]

/-- `process_csv_file` of the converter, as pure batching of the document
sequence followed by the end-of-input flush. -/
theorem process_csv_file_spec (rows : List CsvRow) (year : Int) :
    process_csv_file rows year =
      (rowDocs (fun r => rowDocument r year) rows).map (fun ds =>
        let p := ds.foldl batchStep ([], [])
        if p.2.isEmpty then ⟨p.1, [], p.1.flatten.length⟩
        else ⟨p.1, p.2, p.1.flatten.length + p.2.length⟩) := by
  unfold process_csv_file
  rw [loop_eq_batching year rows ⟨[], [], 0⟩ rfl]
  cases hds : rowDocs (fun r => rowDocument r year) rows with
  | error e => rfl
  | ok ds =>
    simp only [Except.map]
    by_cases hp : (ds.foldl batchStep ([], [])).2.isEmpty = true
    · rw [if_pos hp]
      rw [if_pos hp]
    · rw [if_neg hp]
      rw [if_neg hp]

end Series990JSONConverter

theorem rowDocs_length (f : CsvRow → Except Unit JVal) (rows : List CsvRow)
    (ds : List JVal) (h : rowDocs f rows = .ok ds) :
    ds.length = (rows.filter (fun r => !(processedRow r).isEmpty)).length := by
  induction rows generalizing ds with
  | nil =>
    rw [rowDocs] at h
    injection h with h
    subst h
    rfl
  | cons r rs ih =>
    rw [rowDocs] at h
    by_cases hr : (processedRow r).isEmpty = true
    · rw [if_pos hr] at h
      rw [List.filter_cons]
      simp only [hr, Bool.not_true, Bool.false_eq_true, if_false]
      exact ih _ h
    · rw [if_neg hr] at h
      cases hf : f r with
      | error e =>
        rw [hf] at h
        cases h
      | ok d =>
        rw [hf] at h
        cases hds : rowDocs f rs with
        | error e =>
          rw [hds] at h
          cases h
        | ok ds2 =>
          rw [hds] at h
          injection h with h
          subst h
          rw [List.filter_cons]
          have hr' : (!(processedRow r).isEmpty) = true := by
            simp [Bool.not_eq_true] at hr ⊢
            exact hr
          rw [if_pos hr']
          simp only [List.length_cons]
          rw [ih _ hds]

theorem processedRow_not_isEmpty (r : CsvRow) :
    (!(processedRow r).isEmpty) = r.any (fun kv => pyStrip kv.2 != "") := by
  unfold processedRow
  induction r with
  | nil => rfl
  | cons kv t ih =>
    by_cases hk : (kv.2 != "" && pyStrip kv.2 != "") = true
    · have hps : (pyStrip kv.2 != "") = true := by
        cases hx : (pyStrip kv.2 != "") with
        | true => rfl
        | false =>
          rw [hx, Bool.and_false] at hk
          cases hk
      rw [List.filter_cons, if_pos hk, List.map_cons]
      simp only [List.isEmpty_cons, Bool.not_false, List.any_cons, hps,
        Bool.true_or]
    · have hk' : (kv.2 != "" && pyStrip kv.2 != "") = false := by
        cases hx : (kv.2 != "" && pyStrip kv.2 != "") with
        | false => rfl
        | true => exact absurd hx hk
      have hfalse : (pyStrip kv.2 != "") = false := by
        by_cases hempty : kv.2 = ""
        · rw [hempty]
          rfl
        · have h1 : (kv.2 != "") = true := by simp [hempty]
          rwa [h1, Bool.true_and] at hk'
      rw [List.filter_cons, if_neg (by simp [hk'])]
      rw [List.any_cons, hfalse, Bool.false_or]
      exact ih

/-- C7: for every input CSV fed to the converter's batch writer, the
returned `total_documents` equals the number of input rows having at least
one non-empty, non-whitespace field value; all-empty rows contribute
nothing. -/
theorem conv_total_counts_nonempty_rows (rows : List CsvRow) (year : Int)
    (res : Series990JSONConverter.ConvResult)
    (h : Series990JSONConverter.process_csv_file rows year = .ok res) :
    res.total = (rows.filter
      (fun r => r.any (fun kv => pyStrip kv.2 != ""))).length := by
  rw [Series990JSONConverter.process_csv_file_spec] at h
  cases hds : rowDocs (fun r => Series990JSONConverter.rowDocument r year)
      rows with
  | error e =>
    rw [hds] at h
    cases h
  | ok ds =>
    rw [hds] at h
    simp only [Except.map] at h
    injection h with h
    have hjoin := batchStep_join ds [] []
    simp only [List.flatten_nil, List.nil_append] at hjoin
    have hcount : ds.length = (rows.filter
        (fun r => r.any (fun kv => pyStrip kv.2 != ""))).length := by
      rw [rowDocs_length _ _ _ hds]
      congr 1
      apply List.filter_congr
      intro x _
      exact processedRow_not_isEmpty x
    by_cases hp : (ds.foldl batchStep ([], [])).2.isEmpty = true
    · rw [if_pos hp] at h
      subst h
      show (ds.foldl batchStep ([], [])).1.flatten.length = _
      rw [← hcount]
      have h2 : (ds.foldl batchStep ([], [])).2 = [] := by
        rwa [List.isEmpty_iff] at hp
      rw [h2, List.append_nil] at hjoin
      rw [hjoin]
    · rw [if_neg hp] at h
      subst h
      show (ds.foldl batchStep ([], [])).1.flatten.length
          + (ds.foldl batchStep ([], [])).2.length = _
      rw [← hcount, ← List.length_append, hjoin]

/-- Witness for C7: three concrete rows — one with a real value, one all
whitespace, one empty — produce total 1. -/
theorem conv_total_counts_nonempty_rows_witness :
    Series990JSONConverter.process_csv_file
        [[("A", " v ")], [("B", "  ")], []] 2022
      = .ok ⟨[], [JVal.obj [("A", JVal.str "v"), ("tax_year", JVal.num 2022)]],
          1⟩ ∧
    (⟨[], [JVal.obj [("A", JVal.str "v"), ("tax_year", JVal.num 2022)]], 1⟩ :
        Series990JSONConverter.ConvResult).total
      = ([[("A", " v ")], [("B", "  ")], ([] : CsvRow)].filter
          (fun r => r.any (fun kv => pyStrip kv.2 != ""))).length := by
  have h : Series990JSONConverter.process_csv_file
      [[("A", " v ")], [("B", "  ")], []] 2022
      = .ok ⟨[], [JVal.obj [("A", JVal.str "v"), ("tax_year", JVal.num 2022)]],
          1⟩ := rfl
  exact ⟨h, conv_total_counts_nonempty_rows _ _ _ h⟩

theorem rowDocs_replicate (f : CsvRow → Except Unit JVal) (r : CsvRow)
    (d : JVal) (n : Nat) (hr : (processedRow r).isEmpty = false)
    (hd : f r = .ok d) :
    rowDocs f (List.replicate n r) = .ok (List.replicate n d) := by
  induction n with
  | zero => rfl
  | succ n ih =>
    rw [List.replicate_succ, rowDocs, if_neg (by simp [hr]), hd, ih,
      List.replicate_succ]

/-- C6: a run of the converter's batch writer whose document sequence has
exactly 10,000 records flushes one full batch inside the loop and leaves
nothing for the end-of-input flush; a run with 9,999 records flushes
nothing inside the loop and writes all 9,999 in the end-of-input flush; and
in every run the concatenation of loop flushes and final flush is exactly
the document sequence (each record flushed once). -/
theorem batch_threshold_boundary (rows1 rows2 : List CsvRow) (year : Int)
    (ds1 ds2 : List JVal)
    (h1 : rowDocs (fun r => Series990JSONConverter.rowDocument r year) rows1
      = .ok ds1)
    (hlen1 : ds1.length = 10000)
    (h2 : rowDocs (fun r => Series990JSONConverter.rowDocument r year) rows2
      = .ok ds2)
    (hlen2 : ds2.length = 9999) :
    Series990JSONConverter.process_csv_file rows1 year
      = .ok ⟨[ds1], [], 10000⟩ ∧
    Series990JSONConverter.process_csv_file rows2 year
      = .ok ⟨[], ds2, 9999⟩ ∧
    ∀ rows ds res,
      rowDocs (fun r => Series990JSONConverter.rowDocument r year) rows
        = .ok ds →
      Series990JSONConverter.process_csv_file rows year = .ok res →
      res.mainBatches.flatten ++ res.finalBatch = ds := by
  refine ⟨?_, ?_, ?_⟩
  · rw [Series990JSONConverter.process_csv_file_spec, h1]
    have hexact : ds1.foldl batchStep ([], []) = ([] ++ [[] ++ ds1], []) := by
      apply batchStep_exact
      · simp [hlen1, batchSize]
      · intro hnil
        rw [hnil] at hlen1
        cases hlen1
    simp only [Except.map, hexact, List.isEmpty_nil, if_pos]
    simp [hlen1]
  · rw [Series990JSONConverter.process_csv_file_spec, h2]
    have hsmall : ds2.foldl batchStep ([], []) = ([], [] ++ ds2) := by
      apply batchStep_small
      simp [hlen2, batchSize]
    have hne : (([], ([] : List JVal) ++ ds2) :
        List (List JVal) × List JVal).2.isEmpty = false := by
      cases hds2 : ds2 with
      | nil =>
        rw [hds2] at hlen2
        cases hlen2
      | cons a t => simp
    simp only [Except.map, hsmall, hne, Bool.false_eq_true, if_false]
    simp [hlen2]
  · intro rows ds res hds hres
    rw [Series990JSONConverter.process_csv_file_spec, hds] at hres
    simp only [Except.map] at hres
    injection hres with hres
    have hjoin := batchStep_join ds [] []
    simp only [List.flatten_nil, List.nil_append] at hjoin
    by_cases hp : (ds.foldl batchStep ([], [])).2.isEmpty = true
    · rw [if_pos hp] at hres
      subst hres
      show (ds.foldl batchStep ([], [])).1.flatten ++ [] = ds
      have h2 : (ds.foldl batchStep ([], [])).2 = [] := by
        rwa [List.isEmpty_iff] at hp
      rw [h2, List.append_nil] at hjoin
      rw [List.append_nil]
      exact hjoin
    · rw [if_neg hp] at hres
      subst hres
      exact hjoin

/-- Witness for C6: 10,000 (resp. 9,999) copies of a one-field row. -/
theorem batch_threshold_boundary_witness :
    Series990JSONConverter.process_csv_file
        (List.replicate 10000 [("A", "v")]) 2022
      = .ok ⟨[List.replicate 10000
          (JVal.obj [("A", JVal.str "v"), ("tax_year", JVal.num 2022)])], [],
          10000⟩ ∧
    Series990JSONConverter.process_csv_file
        (List.replicate 9999 [("A", "v")]) 2022
      = .ok ⟨[], List.replicate 9999
          (JVal.obj [("A", JVal.str "v"), ("tax_year", JVal.num 2022)]),
          9999⟩ := by
  have h1 := rowDocs_replicate
    (fun r => Series990JSONConverter.rowDocument r 2022) [("A", "v")]
    (JVal.obj [("A", JVal.str "v"), ("tax_year", JVal.num 2022)]) 10000
    rfl rfl
  have h2 := rowDocs_replicate
    (fun r => Series990JSONConverter.rowDocument r 2022) [("A", "v")]
    (JVal.obj [("A", JVal.str "v"), ("tax_year", JVal.num 2022)]) 9999
    rfl rfl
  have hmain := batch_threshold_boundary
    (List.replicate 10000 [("A", "v")]) (List.replicate 9999 [("A", "v")])
    2022 _ _ h1 (by rw [List.length_replicate]) h2 (by rw [List.length_replicate])
  exact ⟨hmain.1, hmain.2.1⟩

namespace Series990MongoDBUploader

/-- Total of the inserted counts the server reported for the first `n`
submitted batches. -/
def sumReported (outcomes : Nat → BulkOutcome) (n : Nat) : Nat :=
  ((List.range n).map (fun i => (outcomes i).reported)).sum

theorem sumReported_succ (outcomes : Nat → BulkOutcome) (n : Nat) :
    sumReported outcomes (n + 1)
      = sumReported outcomes n + (outcomes n).reported := by
  unfold sumReported
  rw [List.range_succ, List.map_append, List.sum_append]
  simp

/-- The uploader's row loop, started from a state whose running total is
the sum of the reported counts of its submitted batches, computes exactly
the pure batching of the document sequence. -/
theorem up_loop_eq_batching (outcomes : Nat → BulkOutcome)
    (rows : List CsvRow) (st0 : UpState)
    (htot : st0.total = sumReported outcomes st0.batches.length) :
    rows.foldlM (upStep outcomes) st0 =
      (rowDocs rowDocument rows).map (fun ds =>
        let p := ds.foldl batchStep (st0.batches, st0.ops)
        (⟨p.1, p.2, sumReported outcomes p.1.length⟩ : UpState)) := by
  induction rows generalizing st0 with
  | nil =>
    cases st0 with
    | mk bs ops tot =>
      have h : tot = sumReported outcomes bs.length := htot
      subst h
      rfl
  | cons r rs ih =>
    rw [List.foldlM_cons, rowDocs]
    by_cases hr : (processedRow r).isEmpty = true
    · have hstep : upStep outcomes st0 r = Except.ok st0 := by
        simp [upStep, hr]
      rw [hstep, if_pos hr]
      show rs.foldlM (upStep outcomes) st0 = _
      exact ih st0 htot
    · rw [if_neg hr]
      cases hd : rowDocument r with
      | error e =>
        have hstep : upStep outcomes st0 r = Except.error e := by
          simp [upStep, hr, hd]
        rw [hstep]
        simp only [hd]
        rfl
      | ok doc =>
        simp only [hd]
        by_cases hb : batchSize ≤ (st0.ops ++ [doc]).length
        · have hstep : upStep outcomes st0 r = Except.ok
              ⟨st0.batches ++ [st0.ops ++ [doc]], [],
                st0.total + (outcomes st0.batches.length).reported⟩ := by
            simp only [upStep, hr, Bool.false_eq_true, if_false, hd]
            rw [if_pos hb]
          rw [hstep]
          show rs.foldlM (upStep outcomes)
              ⟨st0.batches ++ [st0.ops ++ [doc]], [],
                st0.total + (outcomes st0.batches.length).reported⟩ = _
          rw [ih ⟨st0.batches ++ [st0.ops ++ [doc]], [],
                st0.total + (outcomes st0.batches.length).reported⟩ (by
            show st0.total + (outcomes st0.batches.length).reported
                = sumReported outcomes
                    (st0.batches ++ [st0.ops ++ [doc]]).length
            rw [htot, List.length_append, List.length_cons, List.length_nil,
              sumReported_succ])]
          cases hds : rowDocs rowDocument rs with
          | error e => rfl
          | ok ds =>
            show Except.ok _ = Except.ok _
            simp only [List.foldl_cons, batchStep_eq_flush _ _ _ hb]
        · have hstep : upStep outcomes st0 r = Except.ok
              ⟨st0.batches, st0.ops ++ [doc], st0.total⟩ := by
            simp only [upStep, hr, Bool.false_eq_true, if_false, hd]
            rw [if_neg hb]
          rw [hstep]
          show rs.foldlM (upStep outcomes)
              ⟨st0.batches, st0.ops ++ [doc], st0.total⟩ = _
          rw [ih ⟨st0.batches, st0.ops ++ [doc], st0.total⟩ htot]
          cases hds : rowDocs rowDocument rs with
          | error e => rfl
          | ok ds =>
            show Except.ok _ = Except.ok _
            simp only [List.foldl_cons, batchStep_eq_push _ _ _ hb]

/-- `process_csv_file` of the uploader, as pure batching of the document
sequence followed by the end-of-input submission. -/
theorem up_process_csv_file_spec (rows : List CsvRow)
    (outcomes : Nat → BulkOutcome) :
    process_csv_file rows outcomes =
      (rowDocs rowDocument rows).map (fun ds =>
        let p := ds.foldl batchStep ([], [])
        if p.2.isEmpty then
          (⟨p.1, [], sumReported outcomes p.1.length⟩ : UploadResult)
        else ⟨p.1, p.2, sumReported outcomes (p.1.length + 1)⟩) := by
  unfold process_csv_file
  rw [up_loop_eq_batching outcomes rows ⟨[], [], 0⟩ rfl]
  cases hds : rowDocs rowDocument rows with
  | error e => rfl
  | ok ds =>
    simp only [Except.map]
    by_cases hp : (ds.foldl batchStep ([], [])).2.isEmpty = true
    · rw [if_pos hp]
      rw [if_pos hp]
    · rw [if_neg hp]
      rw [if_neg hp]
      show Except.ok _ = Except.ok _
      rw [sumReported_succ]

end Series990MongoDBUploader

/-- C8: in the uploader, the run's cumulative total is the sum of the
per-batch inserted counts reported by the server (not the batch sizes),
each document is submitted exactly once (failed documents are not
retried), and in particular a single batch of 10,000 operations whose
bulk write reports 9,998 inserted yields a cumulative total of 9,998. -/
theorem bulk_write_partial_failure_accounting (rows : List CsvRow)
    (outcomes : Nat → Series990MongoDBUploader.BulkOutcome)
    (ds : List JVal) (res : Series990MongoDBUploader.UploadResult)
    (hds : rowDocs Series990MongoDBUploader.rowDocument rows = .ok ds)
    (hrun : Series990MongoDBUploader.process_csv_file rows outcomes
      = .ok res) :
    res.total = Series990MongoDBUploader.sumReported outcomes
      (res.mainBatches.length + (if res.finalBatch.isEmpty then 0 else 1)) ∧
    res.mainBatches.flatten ++ res.finalBatch = ds ∧
    Series990MongoDBUploader.process_csv_file
        (List.replicate 10000 [("A", "v")])
        (fun _ => Series990MongoDBUploader.BulkOutcome.bulkWriteError 9998)
      = .ok ⟨[List.replicate 10000 (JVal.obj [("A", JVal.str "v")])], [],
          9998⟩ := by
  rw [Series990MongoDBUploader.up_process_csv_file_spec, hds] at hrun
  simp only [Except.map] at hrun
  injection hrun with hrun
  have hjoin := batchStep_join ds [] []
  simp only [List.flatten_nil, List.nil_append] at hjoin
  refine ⟨?_, ?_, ?_⟩
  · by_cases hp : (ds.foldl batchStep ([], [])).2.isEmpty = true
    · rw [if_pos hp] at hrun
      subst hrun
      show Series990MongoDBUploader.sumReported outcomes
          (ds.foldl batchStep ([], [])).1.length = _
      simp
    · rw [if_neg hp] at hrun
      subst hrun
      show Series990MongoDBUploader.sumReported outcomes
          ((ds.foldl batchStep ([], [])).1.length + 1) = _
      have hp' : ((ds.foldl batchStep ([], [])).2.isEmpty) = false := by
        cases hx : ((ds.foldl batchStep ([], [])).2.isEmpty) with
        | false => rfl
        | true => exact absurd hx hp
      simp [hp']
  · by_cases hp : (ds.foldl batchStep ([], [])).2.isEmpty = true
    · rw [if_pos hp] at hrun
      subst hrun
      show (ds.foldl batchStep ([], [])).1.flatten ++ [] = ds
      have h2 : (ds.foldl batchStep ([], [])).2 = [] := by
        rwa [List.isEmpty_iff] at hp
      rw [h2, List.append_nil] at hjoin
      rw [List.append_nil]
      exact hjoin
    · rw [if_neg hp] at hrun
      subst hrun
      exact hjoin
  · have hds10 := rowDocs_replicate Series990MongoDBUploader.rowDocument
      [("A", "v")] (JVal.obj [("A", JVal.str "v")]) 10000 rfl rfl
    rw [Series990MongoDBUploader.up_process_csv_file_spec, hds10]
    have hexact : (List.replicate 10000
        (JVal.obj [("A", JVal.str "v")])).foldl batchStep ([], [])
        = ([] ++ [[] ++ List.replicate 10000 (JVal.obj [("A", JVal.str "v")])],
          []) := by
      apply batchStep_exact
      · rw [List.length_nil, List.length_replicate]
        rfl
      · intro hnil
        have := congrArg List.length hnil
        rw [List.length_replicate] at this
        cases this
    simp only [Except.map, hexact, List.isEmpty_nil, if_pos]
    rfl

/-- Witness for C8: two one-field rows with a server that reports 7
inserted for the only (end-of-input) submission. -/
theorem bulk_write_partial_failure_accounting_witness :
    rowDocs Series990MongoDBUploader.rowDocument
        (List.replicate 2 [("A", "v")])
      = .ok (List.replicate 2 (JVal.obj [("A", JVal.str "v")])) ∧
    Series990MongoDBUploader.process_csv_file (List.replicate 2 [("A", "v")])
        (fun _ => Series990MongoDBUploader.BulkOutcome.ok 7)
      = .ok ⟨[], List.replicate 2 (JVal.obj [("A", JVal.str "v")]), 7⟩ ∧
    (⟨[], List.replicate 2 (JVal.obj [("A", JVal.str "v")]), 7⟩ :
        Series990MongoDBUploader.UploadResult).total
      = Series990MongoDBUploader.sumReported
          (fun _ => Series990MongoDBUploader.BulkOutcome.ok 7)
          (([] : List (List JVal)).length + 1) := by
  have hds : rowDocs Series990MongoDBUploader.rowDocument
      (List.replicate 2 [("A", "v")])
      = .ok (List.replicate 2 (JVal.obj [("A", JVal.str "v")])) := rfl
  have hrun : Series990MongoDBUploader.process_csv_file
      (List.replicate 2 [("A", "v")])
      (fun _ => Series990MongoDBUploader.BulkOutcome.ok 7)
      = .ok ⟨[], List.replicate 2 (JVal.obj [("A", JVal.str "v")]), 7⟩ := rfl
  have hmain := bulk_write_partial_failure_accounting _ _ _ _ hds hrun
  refine ⟨hds, hrun, ?_⟩
  have h1 := hmain.1
  simpa using h1

/-! ## Downloaders: `download_file` error behaviour

All four downloaders run `requests.get(url, stream=True)` followed by
`response.raise_for_status()` and then write the body to a local path.
The `except` clause of `Pub78Downloader`, `Postcard990Downloader` and
`Form990MasterDownloader` re-raises; the one in `Series990Downloader`
logs and returns `None`. The `Except` layer below is the Python
exception channel as seen by the caller. -/

/-- Outcome of `requests.get`: connection failure, or a response with an
HTTP status code and a body. -/
inductive HttpOutcome where
  | netError (msg : String)
  | response (status : Nat) (body : String)

/-- `Response.raise_for_status()` raises `HTTPError` exactly for 4xx and
5xx status codes. -/
def raise_for_status (status : Nat) : Except String Unit :=
  if 400 ≤ status ∧ status < 600 then .error "HTTPError" else .ok ()

/-- A failed fetch: connection error, or an HTTP error status. -/
def HttpOutcome.isFailure : HttpOutcome → Bool
  | .netError _ => true
  | .response status _ => decide (400 ≤ status) && decide (status < 600)

/-- Python `url.split('/')[-1]`. -/
def lastUrlComponent (url : String) : String :=
  (url.splitOn "/").getLastD ""

namespace Series990Downloader

/-- `Series990Downloader.download_file(url, year)`: the whole body is in a
`try` whose `except` logs and returns `None`, so no exception escapes. -/
def download_file (net : HttpOutcome) (url year : String) :
    Except String (Option String) :=
  match net with
  | .netError _ => .ok none
  | .response status _ =>
    match raise_for_status status with
    | .error _ => .ok none
    | .ok _ => .ok (some ("data/" ++ year ++ "/" ++ lastUrlComponent url))

end Series990Downloader

namespace Pub78Downloader

/-- `Pub78Downloader.download_file()`: the `except` clause re-raises. -/
def download_file (net : HttpOutcome) (url : String) :
    Except String String :=
  match net with
  | .netError e => .error e
  | .response status _ =>
    match raise_for_status status with
    | .error e => .error e
    | .ok _ => .ok (lastUrlComponent url)

end Pub78Downloader

namespace Postcard990Downloader

/-- `Postcard990Downloader.download_file()`: the `except` clause
re-raises. -/
def download_file (net : HttpOutcome) (url : String) :
    Except String String :=
  match net with
  | .netError e => .error e
  | .response status _ =>
    match raise_for_status status with
    | .error e => .error e
    | .ok _ => .ok (lastUrlComponent url)

end Postcard990Downloader

namespace Form990MasterDownloader

/-- `Form990MasterDownloader.download_file(url)`: the `except` clause
re-raises. -/
def download_file (net : HttpOutcome) (url : String) :
    Except String String :=
  match net with
  | .netError e => .error e
  | .response status _ =>
    match raise_for_status status with
    | .error e => .error e
    | .ok _ => .ok (lastUrlComponent url)

end Form990MasterDownloader

/-- C5 counterexample: `Series990Downloader.download_file` does not raise
on failure — a network failure and a 404 response both yield `.ok none`
(the exception is caught and `None` returned), contradicting the claim
that every downloader's `download_file` aborts by raising an error that
propagates to the caller. -/
theorem series990_download_swallows_error :
    Series990Downloader.download_file (HttpOutcome.netError "timeout")
      "https://apps.irs.gov/pub/epostcard/990/xml/2022/download990xml_2022_1.zip"
      "2022" = .ok none ∧
    Series990Downloader.download_file (HttpOutcome.response 404 "")
      "https://apps.irs.gov/pub/epostcard/990/xml/2022/download990xml_2022_1.zip"
      "2022" = .ok none := by
  exact ⟨rfl, rfl⟩

/-- C5 (amended): on a network failure or an HTTP error status, the
Pub 78, Postcard 990 and Form 990 master downloaders' `download_file`
raises and the error propagates to the caller, while the Series 990
downloader's `download_file` catches the error and returns `None`; in
every case no file path is returned on failure. -/
theorem download_file_failure_behaviour (net : HttpOutcome)
    (url year : String) (hfail : net.isFailure = true) :
    (∃ e, Pub78Downloader.download_file net url = .error e) ∧
    (∃ e, Postcard990Downloader.download_file net url = .error e) ∧
    (∃ e, Form990MasterDownloader.download_file net url = .error e) ∧
    Series990Downloader.download_file net url year = .ok none := by
  cases net with
  | netError e =>
    exact ⟨⟨e, rfl⟩, ⟨e, rfl⟩, ⟨e, rfl⟩, rfl⟩
  | response status body =>
    simp only [HttpOutcome.isFailure, Bool.and_eq_true, decide_eq_true_eq]
      at hfail
    have hrs : raise_for_status status = .error "HTTPError" := by
      unfold raise_for_status
      rw [if_pos hfail]
    refine ⟨⟨"HTTPError", ?_⟩, ⟨"HTTPError", ?_⟩, ⟨"HTTPError", ?_⟩, ?_⟩
    · show (match raise_for_status status with
        | .error e => Except.error e
        | .ok _ => Except.ok (lastUrlComponent url)) = _
      rw [hrs]
    · show (match raise_for_status status with
        | .error e => Except.error e
        | .ok _ => Except.ok (lastUrlComponent url)) = _
      rw [hrs]
    · show (match raise_for_status status with
        | .error e => Except.error e
        | .ok _ => Except.ok (lastUrlComponent url)) = _
      rw [hrs]
    · show (match raise_for_status status with
        | .error _ => Except.ok none
        | .ok _ => Except.ok (some ("data/" ++ year ++ "/" ++
            lastUrlComponent url))) = _
      rw [hrs]

/-- Witness for the amended C5 at a connection failure. -/
theorem download_file_failure_behaviour_witness :
    (HttpOutcome.netError "connection reset").isFailure = true ∧
    ((∃ e, Pub78Downloader.download_file
        (HttpOutcome.netError "connection reset") "u" = .error e) ∧
     (∃ e, Postcard990Downloader.download_file
        (HttpOutcome.netError "connection reset") "u" = .error e) ∧
     (∃ e, Form990MasterDownloader.download_file
        (HttpOutcome.netError "connection reset") "u" = .error e) ∧
     Series990Downloader.download_file
        (HttpOutcome.netError "connection reset") "u" "2022" = .ok none) := by
  exact ⟨rfl, download_file_failure_behaviour _ "u" "2022" rfl⟩

/-! ## Series 990 per-year processing and CSV materialization

`process_year_data` flattens every XML filing into a JSON-lines
intermediate while accumulating the union of all field names
(`all_fields`, seeded with `fileName`), then — when at least one record
was produced — replays the intermediate row by row into a CSV whose
header is `sorted(list(all_fields))` (`convert_jsonl_to_csv`). Files are
modelled already parsed; the JSON-lines round trip (`json.dump` /
`json.loads` per record) is modelled as the identity on records. -/

/-- Python string comparison (used by `sorted`): lexicographic by code
point. Implemented on character lists so that it evaluates in the
kernel. -/
def charListLt : List Char → List Char → Bool
  | _, [] => false
  | [], _ :: _ => true
  | a :: as, b :: bs =>
    if a.toNat < b.toNat then true
    else if b.toNat < a.toNat then false
    else charListLt as bs

def strLt (a b : String) : Bool := charListLt a.toList b.toList

theorem charListLt_cons_cons (a b : Char) (as bs : List Char) :
    charListLt (a :: as) (b :: bs)
      = if a.toNat < b.toNat then true
        else if b.toNat < a.toNat then false
        else charListLt as bs := rfl

theorem charListLt_irrefl : ∀ l : List Char, charListLt l l = false
  | [] => rfl
  | c :: cs => by
    rw [charListLt_cons_cons, if_neg (Nat.lt_irrefl _),
      if_neg (Nat.lt_irrefl _)]
    exact charListLt_irrefl cs

theorem charListLt_trans : ∀ (a b c : List Char), charListLt a b = true →
    charListLt b c = true → charListLt a c = true := by
  intro a
  induction a with
  | nil =>
    intro b c h1 h2
    cases b with
    | nil => cases h1
    | cons y bs =>
      cases c with
      | nil => simp [charListLt] at h2
      | cons z cs => rfl
  | cons x as ih =>
    intro b c h1 h2
    cases b with
    | nil => simp [charListLt] at h1
    | cons y bs =>
      cases c with
      | nil => simp [charListLt] at h2
      | cons z cs =>
        rw [charListLt_cons_cons] at h1 h2 ⊢
        by_cases hxz : x.toNat < z.toNat
        · rw [if_pos hxz]
        · rw [if_neg hxz]
          by_cases hxy : x.toNat < y.toNat
          · rw [if_pos hxy] at h1
            by_cases hyz : y.toNat < z.toNat
            · omega
            · rw [if_neg hyz] at h2
              by_cases hzy : z.toNat < y.toNat
              · rw [if_pos hzy] at h2
                cases h2
              · omega
          · rw [if_neg hxy] at h1
            by_cases hyx : y.toNat < x.toNat
            · rw [if_pos hyx] at h1
              cases h1
            · rw [if_neg hyx] at h1
              by_cases hyz : y.toNat < z.toNat
              · omega
              · rw [if_neg hyz] at h2
                by_cases hzy : z.toNat < y.toNat
                · rw [if_pos hzy] at h2
                  cases h2
                · rw [if_neg hzy] at h2
                  rw [if_neg (by omega : ¬ z.toNat < x.toNat)]
                  exact ih bs cs h1 h2

theorem charListLt_connex : ∀ (a b : List Char), a ≠ b →
    charListLt a b = false → charListLt b a = true := by
  intro a
  induction a with
  | nil =>
    intro b hne h
    cases b with
    | nil => exact absurd rfl hne
    | cons y bs => simp [charListLt] at h
  | cons x as ih =>
    intro b hne h
    cases b with
    | nil => rfl
    | cons y bs =>
      rw [charListLt_cons_cons] at h
      rw [charListLt_cons_cons]
      by_cases hxy : x.toNat < y.toNat
      · rw [if_pos hxy] at h
        cases h
      · rw [if_neg hxy] at h
        by_cases hyx : y.toNat < x.toNat
        · rw [if_pos hyx]
        · rw [if_neg hyx] at h
          rw [if_neg hyx, if_neg hxy]
          have hchar : x = y := by
            apply Char.ext
            have : x.toNat = y.toNat := by omega
            simpa [UInt32.ext_iff] using this
          subst hchar
          exact ih bs (fun hh => hne (by rw [hh])) h

/-- Insertion into a strictly ascending list of distinct strings;
inserting an element already present leaves the list unchanged. Together
with `sortedDedup` this is the canonical model of Python
`sorted(list(set(...)))`. -/
def insertSorted (x : String) : List String → List String
  | [] => [x]
  | y :: ys =>
    if x = y then y :: ys
    else if strLt x y then x :: y :: ys
    else y :: insertSorted x ys

def sortedDedup (l : List String) : List String :=
  l.foldr insertSorted []

theorem mem_insertSorted (x y : String) (l : List String) :
    y ∈ insertSorted x l ↔ (y = x ∨ y ∈ l) := by
  induction l with
  | nil => simp [insertSorted]
  | cons z zs ih =>
    unfold insertSorted
    by_cases hxz : x = z
    · rw [if_pos hxz]
      subst hxz
      constructor
      · intro h
        exact Or.inr h
      · intro h
        rcases h with rfl | h
        · exact List.mem_cons_self _ _
        · exact h
    · rw [if_neg hxz]
      by_cases hlt : strLt x z = true
      · rw [if_pos hlt]
        simp [List.mem_cons, or_assoc]
      · rw [if_neg hlt]
        simp only [List.mem_cons, ih]
        tauto

theorem pairwise_insertSorted (x : String) (l : List String)
    (h : l.Pairwise (fun a b => strLt a b = true)) :
    (insertSorted x l).Pairwise (fun a b => strLt a b = true) := by
  induction l with
  | nil => simp [insertSorted]
  | cons y ys ih =>
    rw [List.pairwise_cons] at h
    unfold insertSorted
    by_cases hxy : x = y
    · rw [if_pos hxy]
      exact List.pairwise_cons.mpr h
    · rw [if_neg hxy]
      by_cases hlt : strLt x y = true
      · rw [if_pos hlt]
        refine List.pairwise_cons.mpr ⟨?_, List.pairwise_cons.mpr h⟩
        intro z hz
        rcases List.mem_cons.mp hz with rfl | hz
        · exact hlt
        · exact charListLt_trans _ _ _ hlt (h.1 z hz)
      · rw [if_neg hlt]
        refine List.pairwise_cons.mpr ⟨?_, ih h.2⟩
        intro z hz
        rcases (mem_insertSorted x z ys).mp hz with rfl | hz
        · exact charListLt_connex _ _
            (fun hh => hxy (by
              cases z
              cases y
              exact congrArg String.mk (by simpa [String.toList] using hh)))
            (by
              cases hx : strLt z y with
              | false => exact hx
              | true => exact absurd hx hlt)
        · exact h.1 z hz

theorem pairwise_sortedDedup (l : List String) :
    (sortedDedup l).Pairwise (fun a b => strLt a b = true) := by
  induction l with
  | nil => exact List.Pairwise.nil
  | cons x xs ih => exact pairwise_insertSorted x _ ih

theorem nodup_sortedDedup (l : List String) : (sortedDedup l).Nodup := by
  refine (pairwise_sortedDedup l).imp ?_
  intro a b hab heq
  subst heq
  unfold strLt at hab
  rw [charListLt_irrefl] at hab
  cases hab

theorem mem_sortedDedup (l : List String) (y : String) :
    y ∈ sortedDedup l ↔ y ∈ l := by
  induction l with
  | nil => simp [sortedDedup]
  | cons x xs ih =>
    show y ∈ insertSorted x (sortedDedup xs) ↔ _
    rw [mem_insertSorted, ih, List.mem_cons]

/-- A CSV cell written by `csv.DictWriter.writerow`: a missing field and a
JSON `null` both become the empty string. -/
def csvCell : Option (Option String) → String
  | none => ""
  | some none => ""
  | some (some s) => s

/-- One replayed CSV row: the record's value under each header field. -/
def rowOf (fieldnames : List String) (rec : List (String × Option String)) :
    List String :=
  fieldnames.map (fun k => csvCell (dictGet rec k))

structure YearCsv where
  header : List String
  rows : List (List String)
deriving DecidableEq

namespace Series990Downloader

/-- `process_year_data` for one year, over the parsed filings (filename,
XML root): flatten each filing, accumulate the field-name union, and when
at least one record exists materialize the CSV via
`convert_jsonl_to_csv`; otherwise no CSV is produced. -/
def process_year_data (files : List (String × Xml)) : Option YearCsv :=
  let records := files.map (fun f => flatten_xml f.2 f.1)
  let fieldnames := sortedDedup ("fileName" :: (records.map dictKeys).flatten)
  if records.length > 0 then
    some ⟨fieldnames, records.map (rowOf fieldnames)⟩
  else none

end Series990Downloader

/-- C9: whenever `process_year_data` materializes a CSV, its header is the
strictly sorted (hence duplicate-free) list containing exactly the
reserved `fileName` field and the field names of all flattened records of
that year, and the rows are precisely the flattened records replayed in
order under that header. -/
theorem process_year_data_csv_header (files : List (String × Xml))
    (out : YearCsv)
    (h : Series990Downloader.process_year_data files = some out) :
    out.header.Pairwise (fun a b => strLt a b = true) ∧
    out.header.Nodup ∧
    (∀ k, k ∈ out.header ↔
      (k = "fileName" ∨ ∃ f ∈ files, k ∈ dictKeys (flatten_xml f.2 f.1))) ∧
    out.rows = (files.map (fun f => flatten_xml f.2 f.1)).map
      (rowOf out.header) := by
  unfold Series990Downloader.process_year_data at h
  by_cases hne : (files.map (fun f => flatten_xml f.2 f.1)).length > 0
  · rw [if_pos hne] at h
    injection h with h
    subst h
    refine ⟨pairwise_sortedDedup _, nodup_sortedDedup _, ?_, rfl⟩
    intro k
    rw [mem_sortedDedup, List.mem_cons]
    constructor
    · intro hk
      rcases hk with hk | hk
      · exact Or.inl hk
      · refine Or.inr ?_
        rw [List.mem_flatten] at hk
        obtain ⟨keys, hkeys, hkmem⟩ := hk
        rw [List.mem_map] at hkeys
        obtain ⟨rec, hrec, rfl⟩ := hkeys
        rw [List.mem_map] at hrec
        obtain ⟨f, hf, rfl⟩ := hrec
        exact ⟨f, hf, hkmem⟩
    · intro hk
      rcases hk with hk | hk
      · exact Or.inl hk
      · refine Or.inr ?_
        obtain ⟨f, hf, hkmem⟩ := hk
        rw [List.mem_flatten]
        exact ⟨dictKeys (flatten_xml f.2 f.1),
          List.mem_map.mpr ⟨flatten_xml f.2 f.1,
            List.mem_map.mpr ⟨f, hf, rfl⟩, rfl⟩, hkmem⟩
  · rw [if_neg hne] at h
    cases h

/-- Witness for C9 at the scenario filing. -/
theorem process_year_data_csv_header_witness :
    Series990Downloader.process_year_data [("f.xml", returnExample)]
      = some ⟨["ReturnHeader_TaxYr", "fileName"], [["2022", "f.xml"]]⟩ ∧
    (["ReturnHeader_TaxYr", "fileName"] : List String).Pairwise
      (fun a b => strLt a b = true) ∧
    (⟨["ReturnHeader_TaxYr", "fileName"], [["2022", "f.xml"]]⟩ :
      YearCsv).rows = ([("f.xml", returnExample)].map
        (fun f => flatten_xml f.2 f.1)).map
          (rowOf ["ReturnHeader_TaxYr", "fileName"]) := by
  have h : Series990Downloader.process_year_data [("f.xml", returnExample)]
      = some ⟨["ReturnHeader_TaxYr", "fileName"], [["2022", "f.xml"]]⟩ := by
    simp only [Series990Downloader.process_year_data, returnExample,
      List.map_cons, List.map_nil, flatten_xml, Xml.children, flattenList]
    decide
  have hmain := process_year_data_csv_header _ _ h
  exact ⟨h, hmain.1, hmain.2.2.2⟩


/-! ## `build_json_structure` as a right inverse of flattening (C10) -/

theorem string_empty_append (s : String) : "" ++ s = s := by
  cases s
  rfl

theorem string_mk_toList (s : String) : String.mk s.toList = s := by
  cases s
  rfl

theorem string_toList_append (a b : String) :
    (a ++ b).toList = a.toList ++ b.toList :=
  String.data_append a b

theorem splitChars_no_underscore (l : List Char) (h : ¬ '_' ∈ l) :
    splitChars l = [l] := by
  induction l with
  | nil => rfl
  | cons c cs ih =>
    rw [List.mem_cons, not_or] at h
    unfold splitChars
    rw [if_neg (fun hc => h.1 hc.symm), ih h.2]

theorem splitChars_append_underscore (a b : List Char) (h : ¬ '_' ∈ a) :
    splitChars (a ++ '_' :: b) = a :: splitChars b := by
  induction a with
  | nil =>
    show splitChars ('_' :: b) = [] :: splitChars b
    rw [splitChars, if_pos rfl]
  | cons c cs ih =>
    rw [List.mem_cons, not_or] at h
    show splitChars (c :: (cs ++ '_' :: b)) = (c :: cs) :: splitChars b
    rw [splitChars, if_neg (fun hc => h.1 hc.symm), ih h.2]

/-- The accumulated prefix (with trailing underscore) of a tag path. -/
def prefixStr : List String → String
  | [] => ""
  | t :: ts => t ++ "_" ++ prefixStr ts

theorem mkKey_eq (pre t : String) :
    (if pre = "" then t else pre ++ t) = pre ++ t := by
  by_cases h : pre = ""
  · rw [if_pos h, h, string_empty_append]
  · rw [if_neg h]

theorem split_prefixStr (P : List String) (t : String)
    (hP : ∀ p ∈ P, ¬ '_' ∈ p.toList) (ht : ¬ '_' ∈ t.toList) :
    splitOnUnderscore (prefixStr P ++ t) = P ++ [t] := by
  induction P with
  | nil =>
    show splitOnUnderscore ("" ++ t) = [t]
    rw [string_empty_append]
    unfold splitOnUnderscore
    rw [splitChars_no_underscore _ ht, List.map_cons, List.map_nil,
      string_mk_toList]
  | cons p ps ih =>
    show splitOnUnderscore (p ++ "_" ++ prefixStr ps ++ t) = (p :: ps) ++ [t]
    unfold splitOnUnderscore
    have hchars : (p ++ "_" ++ prefixStr ps ++ t).toList
        = p.toList ++ '_' :: (prefixStr ps ++ t).toList := by
      rw [show p ++ "_" ++ prefixStr ps ++ t = p ++ "_" ++ (prefixStr ps ++ t)
        from by rw [String.append_assoc]]
      rw [string_toList_append, string_toList_append]
      rw [List.append_assoc]
      rfl
    rw [hchars,
      splitChars_append_underscore _ _ (hP p (List.mem_cons_self p ps)),
      List.map_cons, string_mk_toList]
    have ihx := ih (fun q hq => hP q (List.mem_cons_of_mem p hq))
    unfold splitOnUnderscore at ihx
    rw [ihx]
    rfl

/-- No underscore (so key splitting is faithful) and no namespace brace
(so `stripNs` is the identity) in the tag. -/
def plainTag (s : String) : Bool :=
  decide ('_' ∉ s.toList) && decide ('\x7b' ∉ s.toList)

theorem stripNs_plain (s : String) (h : ¬ '\x7b' ∈ s.toList) :
    stripNs s = s := by
  unfold stripNs
  have hidx : s.toList.findIdx? (· == '\x7b') = none := by
    rw [List.findIdx?_eq_none_iff]
    intro c hc
    cases hx : (c == '\x7b') with
    | false => rfl
    | true => exact absurd (by rw [eq_of_beq hx] at hc; exact hc) h
  rw [hidx]

mutual
/-- The nested JSON view of one XML element: a childless element is its
text content, an element with children is the object of its children. -/
def xmlJson : Xml → JVal
  | Xml.elem _ tx [] => JVal.str (tx.getD "")
  | Xml.elem _ _ (c :: cs) => JVal.obj (xmlFields (c :: cs))

def xmlFields : List Xml → List (String × JVal)
  | [] => []
  | c :: cs => (c.tag, xmlJson c) :: xmlFields cs
end

/-- Well-formedness for the inversion: every tag is plain, sibling tags
are distinct, and every childless element has non-empty text. -/
def goodKids : List Xml → Bool
  | [] => true
  | Xml.elem t tx [] :: rest =>
    plainTag t && (match tx with | some s => s != "" | none => false)
      && goodKids rest && rest.all (fun c => c.tag != t)
  | Xml.elem t _ (c :: cs) :: rest =>
    plainTag t && goodKids (c :: cs)
      && goodKids rest && rest.all (fun c => c.tag != t)
termination_by l => sizeOf l
decreasing_by all_goals simp_wf <;> omega

/-- The leaf pairs of a subtree list, with subtree-relative split paths. -/
def leafPairsL : List Xml → List (List String × Option String)
  | [] => []
  | Xml.elem t tx [] :: rest => ([t], tx) :: leafPairsL rest
  | Xml.elem t _ (c :: cs) :: rest =>
    (leafPairsL (c :: cs)).map (fun pr => (t :: pr.1, pr.2))
      ++ leafPairsL rest
termination_by l => sizeOf l
decreasing_by all_goals simp_wf <;> omega


/-- The body of the `build_json_structure` fold, acting on a pair whose
key is already split. -/
def buildStepL (acc : JVal) (pr : List String × Option String) :
    Except Unit JVal :=
  match pr.2 with
  | none => .ok acc
  | some s =>
    if s = "" then .ok acc
    else setPath acc pr.1.dropLast (pr.1.getLastD "") (JVal.str s)

theorem build_json_structure_eq_foldlM (row : List (String × Option String)) :
    build_json_structure row
      = (row.map (fun kv => (splitOnUnderscore kv.1, kv.2))).foldlM
          buildStepL (JVal.obj []) := by
  rw [List.foldlM_map]
  rfl

theorem dictGet_none_any {α : Type} (m : List (String × α)) (k : String)
    (h : dictGet m k = none) : (m.any fun p => p.1 == k) = false := by
  cases hx : (m.any fun p => p.1 == k) with
  | false => rfl
  | true =>
    obtain ⟨q, hq, hqk⟩ := List.any_eq_true.mp hx
    unfold dictGet at h
    cases hf : m.find? (fun p => p.1 == k) with
    | some r =>
      rw [hf] at h
      cases h
    | none =>
      rw [List.find?_eq_none] at hf
      exact absurd hqk (hf q hq)

theorem dictGet_keys_ne {α : Type} (m : List (String × α)) (k : String)
    (h : dictGet m k = none) : ∀ p ∈ m, (p.1 == k) = false := by
  intro p hp
  unfold dictGet at h
  cases hf : m.find? (fun p => p.1 == k) with
  | some r =>
    rw [hf] at h
    cases h
  | none =>
    rw [List.find?_eq_none] at hf
    cases hx : (p.1 == k) with
    | false => rfl
    | true => exact absurd hx (hf p hp)

theorem dictSet_absent {α : Type} (m : List (String × α)) (k : String)
    (v : α) (h : dictGet m k = none) : dictSet m k v = m ++ [(k, v)] := by
  unfold dictSet
  rw [dictGet_none_any m k h]
  simp

theorem dictGet_append_single {α : Type} (m : List (String × α)) (k : String)
    (v : α) (h : dictGet m k = none) :
    dictGet (m ++ [(k, v)]) k = some v := by
  unfold dictGet at h ⊢
  rw [List.find?_append]
  cases hf : m.find? (fun p => p.1 == k) with
  | some r =>
    rw [hf] at h
    cases h
  | none => simp [List.find?]

theorem dictGet_append_single_ne {α : Type} (m : List (String × α))
    (k k' : String) (v : α) (hne : k' ≠ k) :
    dictGet (m ++ [(k, v)]) k' = dictGet m k' := by
  unfold dictGet
  rw [List.find?_append]
  have hk : ((k, v).1 == k') = false := by
    cases hx : ((k, v).1 == k') with
    | false => rfl
    | true => exact absurd (eq_of_beq hx).symm hne
  cases hf : m.find? (fun p => p.1 == k') with
  | some r => rfl
  | none => simp [List.find?, hk]

theorem map_dictSet_id {α : Type} (m : List (String × α)) (k : String)
    (v : α) (h : ∀ p ∈ m, (p.1 == k) = false) :
    m.map (fun p => if p.1 == k then (k, v) else p) = m := by
  induction m with
  | nil => rfl
  | cons p t ih =>
    rw [List.map_cons, if_neg (by
      rw [h p (List.mem_cons_self p t)]
      exact fun hc => nomatch hc)]
    rw [ih (fun q hq => h q (List.mem_cons_of_mem p hq))]

theorem dictSet_append_single {α : Type} (m : List (String × α))
    (k : String) (x y : α) (h : dictGet m k = none) :
    dictSet (m ++ [(k, x)]) k y = m ++ [(k, y)] := by
  unfold dictSet
  have hany : ((m ++ [(k, x)]).any fun p => p.1 == k) = true := by
    rw [List.any_append]
    simp
  rw [if_pos hany, List.map_append, map_dictSet_id m k y (dictGet_keys_ne m k h)]
  simp

theorem dictSet_dictSet {α : Type} (m : List (String × α)) (k : String)
    (x y : α) : dictSet (dictSet m k x) k y = dictSet m k y := by
  by_cases h : dictGet m k = none
  · rw [dictSet_absent m k x h, dictSet_append_single m k x y h,
      dictSet_absent m k y h]
  · have hsome : ∃ w, dictGet m k = some w := by
      cases hx : dictGet m k with
      | none => exact absurd hx h
      | some w => exact ⟨w, rfl⟩
    obtain ⟨w, hw⟩ := hsome
    have hany : (m.any fun p => p.1 == k) = true := by
      cases hx : (m.any fun p => p.1 == k) with
      | true => rfl
      | false =>
        unfold dictGet at hw
        have : m.find? (fun p => p.1 == k) = none := by
          rw [List.find?_eq_none]
          intro q hq hqk
          have hcontra : (m.any fun p => p.1 == k) = true :=
            List.any_eq_true.mpr ⟨q, hq, hqk⟩
          rw [hx] at hcontra
          cases hcontra
        rw [this] at hw
        cases hw
    unfold dictSet
    rw [if_pos hany]
    have hany2 : ((m.map fun p => if p.1 == k then (k, x) else p).any
        fun p => p.1 == k) = true := by
      obtain ⟨q, hq, hqk⟩ := List.any_eq_true.mp hany
      rw [List.any_eq_true]
      refine ⟨(k, x), List.mem_map.mpr ⟨q, hq, by rw [if_pos hqk]⟩, ?_⟩
      simp
    rw [if_pos hany2, if_pos hany, List.map_map]
    congr 1
    funext p
    by_cases hp : (p.1 == k) = true
    · simp [Function.comp, hp]
    · simp [Function.comp, hp]

theorem setPath_ok_obj (g : List (String × JVal)) (path : List String)
    (lastKey : String) (v : JVal) (J : JVal)
    (h : setPath (JVal.obj g) path lastKey v = .ok J) :
    ∃ fs, J = JVal.obj fs := by
  cases path with
  | nil =>
    rw [setPath] at h
    injection h with h
    exact ⟨_, h.symm⟩
  | cons p rest =>
    rw [setPath] at h
    split at h
    · split at h
      · injection h with h
        exact ⟨_, h.symm⟩
      · cases h
    · split at h
      · injection h with h
        exact ⟨_, h.symm⟩
      · cases h
    · cases h


theorem getLastD_irrel {α : Type} (l : List α) (a b : α) (h : l ≠ []) :
    l.getLastD a = l.getLastD b := by
  cases l with
  | nil => cases h rfl
  | cons x xs => rw [List.getLastD_cons, List.getLastD_cons]

theorem buildStepL_eq_setPath (g : List (String × JVal)) (p : List String)
    (s : String) (hs : s ≠ "") :
    buildStepL (JVal.obj g) (p, some s)
      = setPath (JVal.obj g) p.dropLast (p.getLastD "") (JVal.str s) := by
  show (if s = "" then Except.ok (JVal.obj g)
    else setPath (JVal.obj g) p.dropLast (p.getLastD "") (JVal.str s)) = _
  rw [if_neg hs]

theorem buildStepL_cons_path_present (fs g : List (String × JVal))
    (t : String) (p : List String) (s : String) (hp : p ≠ []) (hs : s ≠ "")
    (hget : dictGet fs t = some (JVal.obj g)) :
    buildStepL (JVal.obj fs) (t :: p, some s)
      = match buildStepL (JVal.obj g) (p, some s) with
        | .ok sub => .ok (JVal.obj (dictSet fs t sub))
        | .error e => .error e := by
  rw [buildStepL_eq_setPath g p s hs]
  show (if s = "" then Except.ok (JVal.obj fs)
    else setPath (JVal.obj fs) (t :: p).dropLast ((t :: p).getLastD "")
      (JVal.str s)) = _
  rw [if_neg hs, List.dropLast_cons_of_ne_nil hp, List.getLastD_cons,
    getLastD_irrel p t "" hp, setPath, hget]

theorem buildStepL_cons_path_absent (fs : List (String × JVal))
    (t : String) (p : List String) (s : String) (hp : p ≠ []) (hs : s ≠ "")
    (hget : dictGet fs t = none) :
    buildStepL (JVal.obj fs) (t :: p, some s)
      = match buildStepL (JVal.obj []) (p, some s) with
        | .ok sub => .ok (JVal.obj (fs ++ [(t, sub)]))
        | .error e => .error e := by
  rw [buildStepL_eq_setPath [] p s hs]
  show (if s = "" then Except.ok (JVal.obj fs)
    else setPath (JVal.obj fs) (t :: p).dropLast ((t :: p).getLastD "")
      (JVal.str s)) = _
  rw [if_neg hs, List.dropLast_cons_of_ne_nil hp, List.getLastD_cons,
    getLastD_irrel p t "" hp, setPath, hget]

/-- Folding pairs whose paths all start with `t` into an object carrying
an object at key `t` updates exactly that sub-object. -/
theorem fold_descend (pairs : List (List String × Option String))
    (t : String) :
    ∀ (fs g : List (String × JVal)),
    pairs ≠ [] →
    (∀ pr ∈ pairs, pr.1 ≠ []) →
    (∀ pr ∈ pairs, ∃ s, pr.2 = some s ∧ s ≠ "") →
    dictGet fs t = some (JVal.obj g) →
    (pairs.map (fun pr => (t :: pr.1, pr.2))).foldlM buildStepL (JVal.obj fs)
      = match pairs.foldlM buildStepL (JVal.obj g) with
        | .ok sub => .ok (JVal.obj (dictSet fs t sub))
        | .error e => .error e := by
  induction pairs with
  | nil =>
    intro fs g hne _ _ _
    cases hne rfl
  | cons pr rest ih =>
    intro fs g _ hpaths htruthy hget
    obtain ⟨p, pv⟩ := pr
    obtain ⟨s, hs, hsne⟩ := htruthy (p, pv) (List.mem_cons_self _ _)
    have hs' : pv = some s := hs
    subst hs'
    have hp : p ≠ [] := hpaths (p, some s) (List.mem_cons_self _ _)
    rw [List.map_cons, List.foldlM_cons, List.foldlM_cons]
    rw [show ((t :: (p, some s).1, (p, some s).2) :
        List String × Option String) = (t :: p, some s) from rfl]
    rw [buildStepL_cons_path_present fs g t p s hp hsne hget]
    cases hsp : buildStepL (JVal.obj g) (p, some s) with
    | error e => rfl
    | ok sub =>
      obtain ⟨g2, rfl⟩ := setPath_ok_obj g p.dropLast (p.getLastD "")
        (JVal.str s) sub
        (by rw [← buildStepL_eq_setPath g p s hsne]; exact hsp)
      show (rest.map (fun pr => (t :: pr.1, pr.2))).foldlM buildStepL
          (JVal.obj (dictSet fs t (JVal.obj g2)))
        = match (rest.foldlM buildStepL (JVal.obj g2)) with
          | .ok sub => .ok (JVal.obj (dictSet fs t sub))
          | .error e => .error e
      cases rest with
      | nil =>
        show Except.ok (JVal.obj (dictSet fs t (JVal.obj g2)))
          = Except.ok (JVal.obj (dictSet fs t (JVal.obj g2)))
        rfl
      | cons pr2 rest2 =>
        rw [ih (dictSet fs t (JVal.obj g2)) g2 (List.cons_ne_nil _ _)
          (fun q hq => hpaths q (List.mem_cons_of_mem _ hq))
          (fun q hq => htruthy q (List.mem_cons_of_mem _ hq))
          (dictGet_dictSet_self fs t (JVal.obj g2))]
        cases hrest : (pr2 :: rest2).foldlM buildStepL (JVal.obj g2) with
        | error e => rfl
        | ok sub2 =>
          show Except.ok (JVal.obj (dictSet (dictSet fs t (JVal.obj g2)) t
              sub2)) = Except.ok (JVal.obj (dictSet fs t sub2))
          rw [dictSet_dictSet]

/-- Folding pairs whose paths all start with `t` into an object lacking
the key `t` appends `t` bound to the object those pairs build. -/
theorem fold_create (pairs : List (List String × Option String))
    (t : String) (fs : List (String × JVal))
    (hne : pairs ≠ [])
    (hpaths : ∀ pr ∈ pairs, pr.1 ≠ [])
    (htruthy : ∀ pr ∈ pairs, ∃ s, pr.2 = some s ∧ s ≠ "")
    (hget : dictGet fs t = none) :
    (pairs.map (fun pr => (t :: pr.1, pr.2))).foldlM buildStepL (JVal.obj fs)
      = match pairs.foldlM buildStepL (JVal.obj []) with
        | .ok sub => .ok (JVal.obj (fs ++ [(t, sub)]))
        | .error e => .error e := by
  cases pairs with
  | nil => cases hne rfl
  | cons pr rest =>
    obtain ⟨p, pv⟩ := pr
    obtain ⟨s, hs, hsne⟩ := htruthy (p, pv) (List.mem_cons_self _ _)
    have hs' : pv = some s := hs
    subst hs'
    have hp : p ≠ [] := hpaths (p, some s) (List.mem_cons_self _ _)
    rw [List.map_cons, List.foldlM_cons, List.foldlM_cons]
    rw [show ((t :: (p, some s).1, (p, some s).2) :
        List String × Option String) = (t :: p, some s) from rfl]
    rw [buildStepL_cons_path_absent fs t p s hp hsne hget]
    cases hsp : buildStepL (JVal.obj []) (p, some s) with
    | error e => rfl
    | ok sub =>
      obtain ⟨g2, rfl⟩ := setPath_ok_obj [] p.dropLast (p.getLastD "")
        (JVal.str s) sub
        (by rw [← buildStepL_eq_setPath [] p s hsne]; exact hsp)
      show (rest.map (fun pr => (t :: pr.1, pr.2))).foldlM buildStepL
          (JVal.obj (fs ++ [(t, JVal.obj g2)]))
        = match (rest.foldlM buildStepL (JVal.obj g2)) with
          | .ok sub => .ok (JVal.obj (fs ++ [(t, sub)]))
          | .error e => .error e
      cases rest with
      | nil =>
        show Except.ok (JVal.obj (fs ++ [(t, JVal.obj g2)]))
          = Except.ok (JVal.obj (fs ++ [(t, JVal.obj g2)]))
        rfl
      | cons pr2 rest2 =>
        rw [fold_descend (pr2 :: rest2) t (fs ++ [(t, JVal.obj g2)]) g2
          (List.cons_ne_nil _ _)
          (fun q hq => hpaths q (List.mem_cons_of_mem _ hq))
          (fun q hq => htruthy q (List.mem_cons_of_mem _ hq))
          (dictGet_append_single fs t (JVal.obj g2) hget)]
        cases hrest : (pr2 :: rest2).foldlM buildStepL (JVal.obj g2) with
        | error e => rfl
        | ok sub2 =>
          show Except.ok (JVal.obj (dictSet (fs ++ [(t, JVal.obj g2)]) t sub2))
            = Except.ok (JVal.obj (fs ++ [(t, sub2)]))
          rw [dictSet_append_single fs t (JVal.obj g2) sub2 hget]


theorem plainTag_no_underscore {t : String} (h : plainTag t = true) :
    ¬ '_' ∈ t.toList := by
  unfold plainTag at h
  simp only [Bool.and_eq_true, decide_eq_true_eq] at h
  exact h.1

theorem plainTag_no_brace {t : String} (h : plainTag t = true) :
    ¬ '\x7b' ∈ t.toList := by
  unfold plainTag at h
  simp only [Bool.and_eq_true, decide_eq_true_eq] at h
  exact h.2

theorem goodKids_leaf_parts {t : String} {tx : Option String} {rest : List Xml}
    (h : goodKids (Xml.elem t tx [] :: rest) = true) :
    plainTag t = true ∧ (∃ s, tx = some s ∧ s ≠ "") ∧ goodKids rest = true ∧
      ∀ c ∈ rest, c.tag ≠ t := by
  cases tx with
  | none =>
    rw [goodKids.eq_3] at h
    simp only [Bool.and_eq_true] at h
    cases h.1.1.2
  | some s =>
    rw [goodKids.eq_2] at h
    simp only [Bool.and_eq_true] at h
    obtain ⟨⟨⟨h1, h2⟩, h3⟩, h4⟩ := h
    refine ⟨h1, ?_, h3, ?_⟩
    · refine ⟨s, rfl, ?_⟩
      intro hs
      subst hs
      rw [show (("" : String) != "") = false from rfl] at h2
      cases h2
    · intro c hc heq
      have hall := (List.all_eq_true.mp h4) c hc
      rw [heq, bne_self_eq_false] at hall
      cases hall

theorem goodKids_node_parts {t : String} {tx : Option String} {c : Xml}
    {cs rest : List Xml}
    (h : goodKids (Xml.elem t tx (c :: cs) :: rest) = true) :
    plainTag t = true ∧ goodKids (c :: cs) = true ∧ goodKids rest = true ∧
      ∀ c' ∈ rest, c'.tag ≠ t := by
  rw [goodKids.eq_4] at h
  simp only [Bool.and_eq_true] at h
  obtain ⟨⟨⟨h1, h2⟩, h3⟩, h4⟩ := h
  refine ⟨h1, h2, h3, ?_⟩
  intro c' hc heq
  have hall := (List.all_eq_true.mp h4) c' hc
  rw [heq, bne_self_eq_false] at hall
  cases hall

theorem leafPairsL_ne_nil : ∀ cs : List Xml, cs ≠ [] → leafPairsL cs ≠ [] := by
  intro cs
  induction cs using leafPairsL.induct with
  | case1 =>
    intro h
    cases h rfl
  | case2 t tx rest ih =>
    intro _
    rw [leafPairsL]
    exact List.cons_ne_nil _ _
  | case3 t tx c cs2 rest ihInner ihRest =>
    intro _
    rw [leafPairsL]
    intro hcontra
    rcases List.append_eq_nil.mp hcontra with ⟨hmap, _⟩
    rw [List.map_eq_nil_iff] at hmap
    exact ihInner (List.cons_ne_nil _ _) hmap

theorem leafPairsL_paths_ne_nil : ∀ (cs : List Xml)
    (pr : List String × Option String), pr ∈ leafPairsL cs → pr.1 ≠ [] := by
  intro cs
  induction cs using leafPairsL.induct with
  | case1 =>
    intro pr hpr
    rw [leafPairsL] at hpr
    cases hpr
  | case2 t tx rest ih =>
    intro pr hpr
    rw [leafPairsL] at hpr
    rcases List.mem_cons.mp hpr with rfl | hpr
    · exact List.cons_ne_nil _ _
    · exact ih pr hpr
  | case3 t tx c cs2 rest ihInner ihRest =>
    intro pr hpr
    rw [leafPairsL] at hpr
    rcases List.mem_append.mp hpr with hpr | hpr
    · obtain ⟨q, hq, rfl⟩ := List.mem_map.mp hpr
      exact List.cons_ne_nil _ _
    · exact ihRest pr hpr

theorem leafPairsL_truthy : ∀ cs : List Xml, goodKids cs = true →
    ∀ pr ∈ leafPairsL cs, ∃ s, pr.2 = some s ∧ s ≠ "" := by
  intro cs
  induction cs using leafPairsL.induct with
  | case1 =>
    intro _ pr hpr
    rw [leafPairsL] at hpr
    cases hpr
  | case2 t tx rest ih =>
    intro hgood pr hpr
    obtain ⟨_, ⟨s, hsx, hsne⟩, hrest, _⟩ := goodKids_leaf_parts hgood
    rw [leafPairsL] at hpr
    rcases List.mem_cons.mp hpr with rfl | hpr
    · exact ⟨s, by rw [hsx], hsne⟩
    · exact ih hrest pr hpr
  | case3 t tx c cs2 rest ihInner ihRest =>
    intro hgood pr hpr
    obtain ⟨_, hkids, hrest, _⟩ := goodKids_node_parts hgood
    rw [leafPairsL] at hpr
    rcases List.mem_append.mp hpr with hpr | hpr
    · obtain ⟨q, hq, rfl⟩ := List.mem_map.mp hpr
      exact ihInner hkids q hq
    · exact ihRest hrest pr hpr


theorem string_append_empty (s : String) : s ++ "" = s := by
  cases s with
  | mk l =>
    show String.mk (l ++ []) = String.mk l
    rw [List.append_nil]

theorem prefixStr_snoc (P : List String) (t : String) :
    prefixStr (P ++ [t]) = prefixStr P ++ t ++ "_" := by
  induction P with
  | nil =>
    show t ++ "_" ++ "" = "" ++ t ++ "_"
    rw [string_append_empty, string_empty_append]
  | cons p ps ih =>
    show p ++ "_" ++ prefixStr (ps ++ [t]) = (p ++ "_" ++ prefixStr ps) ++ t ++ "_"
    rw [ih, ← String.append_assoc, ← String.append_assoc]

/-- Folding `build_json_structure`'s insertions over the leaf pairs of a
well-formed subtree list extends the accumulated object with exactly the
nested JSON fields of those subtrees. -/
theorem build_leafPairsL : ∀ cs : List Xml, goodKids cs = true →
    ∀ fs : List (String × JVal),
    (∀ c ∈ cs, dictGet fs c.tag = none) →
    (leafPairsL cs).foldlM buildStepL (JVal.obj fs)
      = .ok (JVal.obj (fs ++ xmlFields cs)) := by
  intro cs
  induction cs using leafPairsL.induct with
  | case1 =>
    intro _ fs _
    rw [leafPairsL, xmlFields, List.append_nil]
    rfl
  | case2 t tx rest ih =>
    intro hgood fs habs
    obtain ⟨hpt, ⟨s, hsx, hsne⟩, hrest, hne_t⟩ := goodKids_leaf_parts hgood
    subst hsx
    rw [leafPairsL, List.foldlM_cons]
    have habs_t : dictGet fs t = none := by
      have := habs (Xml.elem t (some s) []) (List.mem_cons_self _ _)
      exact this
    have hstep : buildStepL (JVal.obj fs) ([t], some s)
        = .ok (JVal.obj (fs ++ [(t, JVal.str s)])) := by
      rw [buildStepL_eq_setPath fs [t] s hsne]
      rw [show ([t] : List String).dropLast = [] from rfl,
        show ([t] : List String).getLastD "" = t from rfl, setPath,
        dictSet_absent fs t (JVal.str s) habs_t]
    rw [hstep]
    show (leafPairsL rest).foldlM buildStepL
        (JVal.obj (fs ++ [(t, JVal.str s)])) = _
    rw [ih hrest (fs ++ [(t, JVal.str s)]) (by
      intro c hc
      rw [dictGet_append_single_ne fs t c.tag (JVal.str s) (hne_t c hc)]
      exact habs c (List.mem_cons_of_mem _ hc))]
    rw [xmlFields]
    rw [show (Xml.elem t (some s) []).tag = t from rfl,
      show xmlJson (Xml.elem t (some s) []) = JVal.str s from rfl,
      ← List.append_cons]
  | case3 t tx c cs2 rest ihInner ihRest =>
    intro hgood fs habs
    obtain ⟨hpt, hkids, hrest, hne_t⟩ := goodKids_node_parts hgood
    rw [leafPairsL, List.foldlM_append]
    have habs_t : dictGet fs t = none := by
      have := habs (Xml.elem t tx (c :: cs2)) (List.mem_cons_self _ _)
      exact this
    rw [fold_create (leafPairsL (c :: cs2)) t fs
      (leafPairsL_ne_nil _ (List.cons_ne_nil _ _))
      (leafPairsL_paths_ne_nil _)
      (leafPairsL_truthy _ hkids)
      habs_t]
    rw [ihInner hkids [] (fun c' _ => rfl)]
    show (leafPairsL rest).foldlM buildStepL
        (JVal.obj (fs ++ [(t, JVal.obj ([] ++ xmlFields (c :: cs2)))])) = _
    rw [List.nil_append]
    rw [ihRest hrest (fs ++ [(t, JVal.obj (xmlFields (c :: cs2)))]) (by
      intro c' hc'
      rw [dictGet_append_single_ne fs t c'.tag _ (hne_t c' hc')]
      exact habs c' (List.mem_cons_of_mem _ hc'))]
    rw [show xmlFields (Xml.elem t tx (c :: cs2) :: rest)
        = (t, JVal.obj (xmlFields (c :: cs2))) :: xmlFields rest from rfl,
      ← List.append_cons]

/-- Under the well-formedness conditions, splitting the accumulated string
keys of `leafPaths` recovers exactly the tag paths. -/
theorem leafPaths_map_split : ∀ cs : List Xml, goodKids cs = true →
    ∀ P : List String, (∀ p ∈ P, ¬ '_' ∈ p.toList) →
    (leafPaths cs (prefixStr P)).map
        (fun kv => (splitOnUnderscore kv.1, kv.2))
      = (leafPairsL cs).map (fun pr => (P ++ pr.1, pr.2)) := by
  intro cs
  induction cs using leafPairsL.induct with
  | case1 =>
    intro _ P _
    rw [leafPaths, leafPairsL]
    rfl
  | case2 t tx rest ih =>
    intro hgood P hP
    obtain ⟨hpt, _, hrest, _⟩ := goodKids_leaf_parts hgood
    rw [leafPaths, leafPairsL, List.map_cons, List.map_cons]
    rw [mkKey_eq, stripNs_plain t (plainTag_no_brace hpt)]
    rw [split_prefixStr P t hP (plainTag_no_underscore hpt)]
    rw [ih hrest P hP]
  | case3 t tx c cs2 rest ihInner ihRest =>
    intro hgood P hP
    obtain ⟨hpt, hkids, hrest, _⟩ := goodKids_node_parts hgood
    rw [leafPaths, leafPairsL, List.map_append, List.map_append]
    rw [mkKey_eq, stripNs_plain t (plainTag_no_brace hpt)]
    rw [show prefixStr P ++ t ++ "_" = prefixStr (P ++ [t]) from
      (prefixStr_snoc P t).symm]
    rw [ihInner hkids (P ++ [t]) (by
      intro p hp
      rcases List.mem_append.mp hp with hp | hp
      · exact hP p hp
      · rw [List.mem_singleton] at hp
        subst hp
        exact plainTag_no_underscore hpt)]
    rw [ihRest hrest P hP]
    congr 1
    rw [List.map_map]
    congr 1
    funext pr
    show ((P ++ [t]) ++ pr.1, pr.2) = (P ++ t :: pr.1, pr.2)
    rw [← List.append_cons]


/-- C10: `build_json_structure` discards every entry whose value is falsy
(absent or empty string); on the flattened record of a filing whose tag
names are underscore-free (with distinct sibling tags, namespace-free
tags and non-empty leaf texts) it is a right inverse of flattening,
rebuilding exactly the original nesting; and a flattened key whose tag
itself contains an underscore is re-nested at the wrong depth — the
single leaf tagged `a_b` rebuilds as the two-level object
`a ↦ (b ↦ v)` although the original nesting is the one-level
`a_b ↦ v`. -/
theorem build_json_structure_inverts_flatten (root : Xml) (k : String)
    (v : Option String) (row : List (String × Option String))
    (hfalsy : v = none ∨ v = some "")
    (hgood : goodKids root.children = true) :
    build_json_structure ((k, v) :: row) = build_json_structure row ∧
    build_json_structure (leafPaths root.children "")
      = .ok (JVal.obj (xmlFields root.children)) ∧
    build_json_structure (leafPaths [Xml.elem "a_b" (some "v") []] "")
      = .ok (JVal.obj [("a", JVal.obj [("b", JVal.str "v")])]) ∧
    xmlFields [Xml.elem "a_b" (some "v") []] = [("a_b", JVal.str "v")] := by
  refine ⟨?_, ?_, ?_, ?_⟩
  · rcases hfalsy with rfl | rfl
    · rfl
    · rfl
  · rw [build_json_structure_eq_foldlM]
    have hb1 := leafPaths_map_split root.children hgood []
      (by intro p hp; cases hp)
    rw [show prefixStr [] = "" from rfl] at hb1
    rw [hb1]
    have hfun : (fun pr : List String × Option String =>
        (([] : List String) ++ pr.1, pr.2)) = id := by
      funext pr
      show ([] ++ pr.1, pr.2) = pr
      rw [List.nil_append]
    rw [hfun, List.map_id]
    rw [build_leafPairsL root.children hgood [] (fun c _ => rfl)]
    rw [List.nil_append]
  · rw [show leafPaths [Xml.elem "a_b" (some "v") []] ""
        = [("a_b", some "v")] from by simp only [leafPaths]; rfl]
    rfl
  · rfl

/-- Witness for C10 at the scenario filing (all tags underscore-free),
with the falsy entry `(k, none)` prepended to the empty row. -/
theorem build_json_structure_inverts_flatten_witness :
    goodKids returnExample.children = true ∧
    (build_json_structure [("k", none)] = build_json_structure [] ∧
     build_json_structure (leafPaths returnExample.children "")
       = .ok (JVal.obj (xmlFields returnExample.children)) ∧
     build_json_structure (leafPaths [Xml.elem "a_b" (some "v") []] "")
       = .ok (JVal.obj [("a", JVal.obj [("b", JVal.str "v")])]) ∧
     xmlFields [Xml.elem "a_b" (some "v") []] = [("a_b", JVal.str "v")]) := by
  have hg : goodKids returnExample.children = true := by
    simp only [returnExample, Xml.children, goodKids, plainTag]
    decide
  exact ⟨hg, build_json_structure_inverts_flatten returnExample "k" none []
    (Or.inl rfl) hg⟩


/-- C10 counterexample to the stated domain: the filing
`<Return><A/></Return>` has no underscore in any tag name, yet
`build_json_structure` applied to its flattened record does not rebuild
the original nesting — the absent-text leaf is discarded as falsy, so the
rebuilt object is empty although the nesting carries the field `A`. -/
theorem build_json_structure_not_inverse_on_empty_leaf :
    build_json_structure (leafPaths [Xml.elem "A" none []] "")
      = .ok (JVal.obj []) ∧
    xmlFields [Xml.elem "A" none []] = [("A", JVal.str "")] ∧
    (Except.ok (JVal.obj ([] : List (String × JVal))) : Except Unit JVal)
      ≠ Except.ok (JVal.obj [("A", JVal.str "")]) := by
  refine ⟨?_, rfl, ?_⟩
  · rw [show leafPaths [Xml.elem "A" none []] "" = [("A", none)] from by
      simp only [leafPaths]; rfl]
    rfl
  · intro h
    injection h with h
    injection h with h
    cases h

end NPDC
